import Mathlib

/-!
A verification development for the packrattle parser-combinator core
(`src/parser.ts`).  The file shallowly embeds the code: parser objects live
in an explicit heap addressed by numeric ids (object identity), the
process-wide canonicalization cache `__cache`, the per-pass function cache,
and the thunk identity tags are threaded as explicit state.  Modules that
the repository imports but does not ship (`engine.ts`, `matcher.ts`,
`combiners.ts`, `simple.ts`, `strings.ts`) are modelled from the spec where
a claim needs them; each such definition is marked in its doc comment.
-/

namespace Packrattle

/-! ### Spans and the Match algebra (`matcher.ts` data model, spec section 3) -/

/-- A half-open range over the input sequence: `[start, stop)`. -/
structure Span where
  start : Nat
  stop : Nat
deriving DecidableEq, Repr

/-- JavaScript-ish values produced by user transform functions.  `vreject`
is the distinguished reject sentinel exported by the library. -/
inductive JSVal where
  | vstr (s : String)
  | vnum (n : Int)
  | vnull
  | vreject
deriving DecidableEq, Repr

/-- The sum-type result of a match attempt: success with span and value, or
failure with message and span (spec section 3). -/
inductive Match (α : Type) where
  | success (span : Span) (value : α)
  | failure (message : String) (span : Span)
deriving DecidableEq, Repr

/-- Models `ParseError` from `parser.ts` lines 11-17: carries a message and the
span of the failure. -/
structure ParseError where
  message : String
  span : Span
deriving DecidableEq, Repr

/-- The failure-to-exception boundary of `Parser.run` (`parser.ts` lines
156-163): a `MatchFailure` becomes a thrown `ParseError` carrying the same
message and span, a `MatchSuccess` returns its value.  The source's final
`else throw new Error("impossible")` branch corresponds to no constructor
of `Match`, which has exactly the two variants. -/
def runOf {α : Type} (rv : Match α) : Except ParseError α :=
  match rv with
  | .failure m sp => .error ⟨m, sp⟩
  | .success _ v => .ok v

/-- Models the TS union `U | ((item: Out, span: Span) => U)` taken by
`Parser.map` (`parser.ts` line 170); `typeof f === "function"` decides
between the two arms. -/
inductive MapFn (α β : Type) where
  | const (u : β)
  | fn (f : α → Span → β)

/-- Evaluates `(typeof f === "function") ? f(value, span) : f` from `parser.ts`
line 177. -/
def applyMapFn {α β : Type} : MapFn α β → α → Span → β
  | .const u, _, _ => u
  | .fn f, v, sp => f v sp

/-- Modelled from the spec: `mapMatch` lives in `src/matcher.ts`, which is
absent from the repository sources; spec section 4.2 says it applies `f`
only on the success branch, re-wrapping the result as a new `Match` and
propagating `MatchFailure` unchanged. -/
def mapMatch {α β : Type} (m : Match α) (f : Span → α → Match β) : Match β :=
  match m with
  | .success sp v => f sp v
  | .failure msg sp => .failure msg sp

/-- Modelled from the spec: the reject-sentinel conversion is handled
outside `src/parser.ts` (the absent matcher/engine modules); spec section
4.3 says a would-be success whose transformed value is the distinguished
reject sentinel is converted into a `MatchFailure` anchored at the
original span. -/
def rejectFilter (m : Match JSVal) : Match JSVal :=
  match m with
  | .success sp v => if v = JSVal.vreject then .failure "rejected" sp else .success sp v
  | .failure msg sp => .failure msg sp

/-- The complete match-level semantics of `p.map(f)` (`parser.ts` lines
170-182 composed with the spec-modelled `mapMatch` and reject handling):
on a success of the child with span `sp` and value `v`, build
`MatchSuccess(sp, f(v, sp))` (or the constant `f`), then apply the reject
conversion; failures pass through. -/
def mapStep (f : MapFn JSVal JSVal) (m : Match JSVal) : Match JSVal :=
  rejectFilter (mapMatch m (fun sp v => .success sp (applyMapFn f v sp)))

/-! ### Small association maps

The JS objects `__cache`, `functionCache` and the parser/thunk heaps are
modelled as association lists with first-match lookup, in-place update and
replace-or-append insertion. -/

/-- First-match lookup in an association list. -/
def fget {κ α : Type} [DecidableEq κ] : List (κ × α) → κ → Option α
  | [], _ => none
  | (k, v) :: rest, key => if key = k then some v else fget rest key

/-- Replace the first binding of `key`, or append one. -/
def fset {κ α : Type} [DecidableEq κ] : List (κ × α) → κ → α → List (κ × α)
  | [], key, v => [(key, v)]
  | (k, w) :: rest, key, v =>
    if key = k then (key, v) :: rest else (k, w) :: fset rest key v

/-- Update the first binding of `key` in place; no-op when absent. -/
def fupd {κ α : Type} [DecidableEq κ] : List (κ × α) → κ → (α → α) → List (κ × α)
  | [], _, _ => []
  | (k, w) :: rest, key, f =>
    if key = k then (k, f w) :: rest else (k, w) :: fupd rest key f

/-- Remove every binding of `key` (models JS `delete`). -/
def fdel {κ α : Type} [DecidableEq κ] (l : List (κ × α)) (k : κ) : List (κ × α) :=
  l.filter (fun e => decide (e.1 ≠ k))

/-! ### Lazy parser references (`LazyParser` in `parser.ts` lines 7-9)

`LazyParser1` is a string, a RegExp, or a concrete `Parser` (a heap id
here); following spec section 9 the runtime type tests of `unlazy` are a
closed tagged union, with one extra arm `other` for the values the TS
types exclude but line 218's `instanceof` check rejects at run time
(carrying a string rendering and a JS truthiness flag).  `LazyParser2`
adds arrays, `LazyParser` adds zero-argument thunks; thunk closures live
in a thunk heap and are referenced by id. -/

inductive LazyP1 where
  | parser (pid : Nat)
  | str (s : String)
  | regex (r : String)
  | other (render : String) (truthy : Bool)
deriving DecidableEq, Repr

inductive LazyP2 where
  | one (v : LazyP1)
  | arr (vs : List LazyP1)
deriving DecidableEq, Repr

inductive LazyP where
  | p2 (v : LazyP2)
  | thunk (tid : Nat)
deriving DecidableEq, Repr

/-- JS truthiness of a `LazyParser1` value: the empty string is falsy,
every object (Parser, RegExp) is truthy, junk values carry their flag. -/
def jsTruthy1 : LazyP1 → Bool
  | .str s => if s = "" then false else true
  | .regex _ => true
  | .parser _ => true
  | .other _ t => t

/-- JS truthiness of a `LazyParser2` value (arrays are always truthy). -/
def jsTruthy2 : LazyP2 → Bool
  | .one v => jsTruthy1 v
  | .arr _ => true

/-- JS truthiness of `this.cacheKey` / `this.description` (an absent field
and the empty string are falsy). -/
def optStrTruthy : Option String → Bool
  | none => false
  | some s => if s = "" then false else true

/-! ### The mutable world of `parser.ts`

One record holds the parser heap (split by field, mirroring the mutable
fields of class `Parser`), the module-level `ParserId` counter, the
process-wide `__cache`, the `LazyId` counter and the thunk heap.
`matchers` records which parsers had their matcher generated (line 124);
the generated matcher itself belongs to the absent engine/matcher
modules.  A pid is in `opts`/`dfns` while `this.options` is still
present (`delete this.options`, line 125, removes it). -/

/-- Models `ParserOptions` minus the `describe` closure: the lazy children list
and the `cacheable` flag (`parser.ts` lines 19-31). -/
structure POpt where
  optChildren : Option (List LazyP)
  cacheable : Bool
deriving DecidableEq, Repr

/-- A thunk closure: its `__packrattle_cache_id` tag (assigned on first
sight, `parser.ts` lines 199-202), the lazy value an invocation returns,
and how many times it has been invoked (for the lazy-once property). -/
structure ThunkObj where
  tag : Option Nat
  tbody : LazyP2
  count : Nat
deriving DecidableEq, Repr

/-- The global state: parser heap columns, `ParserId`, `__cache`,
`LazyId`, thunk heap. -/
structure St where
  nextId : Nat := 1
  names : List (Nat × String) := []
  opts : List (Nat × POpt) := []
  dfns : List (Nat × (List String → String)) := []
  chs : List (Nat × List Nat) := []
  descs : List (Nat × String) := []
  ckeys : List (Nat × String) := []
  recs : List Nat := []
  matchers : List Nat := []
  cache : List (String × Nat) := []
  nextLazyId : Nat := 0
  thunks : List (Nat × ThunkObj) := []

/-- The state visible inside one `resolve` pass: the per-pass
`functionCache` (keyed by thunk tag) plus the global state. -/
structure RSt where
  fc : List (Nat × LazyP2)
  st : St

/-- The empty world; `ParserId` starts at 1 (`parser.ts` line 40). -/
def initSt : St := {}

/-! #### Heap projections and updates -/

def pname (s : St) (p : Nat) : String := (fget s.names p).getD ""

def pch (s : St) (p : Nat) : Option (List Nat) := fget s.chs p

def pko (s : St) (p : Nat) : Option String := fget s.ckeys p

def pdesc (s : St) (p : Nat) : Option String := fget s.descs p

/-- Reads `this.options.children || []` (`parser.ts` line 100). -/
def poptC (s : St) (p : Nat) : List LazyP :=
  ((fget s.opts p).getD ⟨none, false⟩).optChildren.getD []

/-- Reads `this.options.cacheable` (`parser.ts` line 109). -/
def pcacheable (s : St) (p : Nat) : Bool :=
  ((fget s.opts p).getD ⟨none, false⟩).cacheable

def tgetD (s : St) (t : Nat) : ThunkObj := (fget s.thunks t).getD ⟨none, .one (.str ""), 0⟩

def tcount (s : St) (t : Nat) : Nat := (tgetD s t).count

def ttag (s : St) (t : Nat) : Option Nat := (tgetD s t).tag

def psetChs (s : St) (p : Nat) (cs : List Nat) : St := { s with chs := fset s.chs p cs }

def psetKey (s : St) (p : Nat) (k : String) : St := { s with ckeys := fset s.ckeys p k }

def psetDesc (s : St) (p : Nat) (d : String) : St := { s with descs := fset s.descs p d }

/-- Lines 124-126: generate the matcher, `delete this.options`,
`delete this.generateMatcher`. -/
def pfinish (s : St) (p : Nat) : St :=
  { s with matchers := p :: s.matchers, opts := fdel s.opts p, dfns := fdel s.dfns p }

/-- Models `parser[ID] = (LazyId++).toString()` (`parser.ts` line 201); the model
keeps tags numeric (JS object keys stringify them). -/
def assignTag (s : St) (t : Nat) : St :=
  { s with
    thunks := fupd s.thunks t (fun o => { o with tag := some s.nextLazyId }),
    nextLazyId := s.nextLazyId + 1 }

/-- The `parser()` invocation: bump the thunk's invocation counter. -/
def bumpCount (s : St) (t : Nat) : St :=
  { s with thunks := fupd s.thunks t (fun o => { o with count := o.count + 1 }) }

/-- Models `__cache[this.cacheKey] = this` (`parser.ts` line 120); only reached
when the key is not yet present. -/
def cinsert (s : St) (k : String) (p : Nat) : St := { s with cache := (k, p) :: s.cache }

/-! ### Errors -/

/-- A thrown JS error is its (mutable) message; `undef` marks the value
`undefined` flowing out of `resolve` line 96 on a cache miss (not a throw
in JS — the caller would crash later; claim C9 shows it cannot happen from
a well-formed state); `fuel` marks model fuel exhaustion (the JS original
would loop). -/
inductive RErr where
  | msg (m : String)
  | undef
  | fuel
deriving DecidableEq, Repr

/-- Models `error.message += " (inside " + this.name + ")"` (`parser.ts` line
103).  Only real thrown messages are annotated. -/
def annotateE (e : RErr) (nm : String) : RErr :=
  match e with
  | .msg m => .msg (m ++ " (inside " ++ nm ++ ")")
  | e => e

/-! ### `unlazy` (`parser.ts` lines 197-220) -/

/-- Modelled from the spec: `quote` is imported from the absent
`src/strings.ts`; spec section 4.1 only requires that cache keys embed the
quoted description / child keys, so the model wraps in double quotes. -/
def quote (s : String) : String := "\"" ++ s ++ "\""

/-- Models `defaultDescribe` (`parser.ts` lines 33-38). -/
def defaultDescribe (name : String) (children : List String) : String :=
  if children.isEmpty then name else name ++ ":" ++ String.intercalate "," children

/-- The function-cache consultation of `unlazy` (`parser.ts` lines
204-210) for a thunk already carrying tag `g`: a JS-truthy cached value is
reused; otherwise `parser()` is invoked (counted) and the result stored
under `g`. -/
def fcLookup (tid g : Nat) (rsA : RSt) : LazyP2 × RSt :=
  match fget rsA.fc g with
  | some w =>
    if jsTruthy2 w then (w, rsA)
    else
      let b := (tgetD rsA.st tid).tbody
      (b, ⟨fset rsA.fc g b, bumpCount rsA.st tid⟩)
  | none =>
    let b := (tgetD rsA.st tid).tbody
    (b, ⟨fset rsA.fc g b, bumpCount rsA.st tid⟩)

/-- The thunk-forcing phase of `unlazy` (`parser.ts` lines 198-211): a
non-function reference passes through; a thunk gets a stable identity tag
on first sight (`parser[ID] = (LazyId++).toString()`), then the per-pass
function cache is consulted through `fcLookup`. -/
def forceThunk (l : LazyP) (rs : RSt) : LazyP2 × RSt :=
  match l with
  | .p2 v => (v, rs)
  | .thunk tid =>
    match (tgetD rs.st tid).tag with
    | some g0 => fcLookup tid g0 rs
    | none => fcLookup tid rs.st.nextLazyId { rs with st := assignTag rs.st tid }

/-- The implicit-conversion phase of `unlazy` on the forced value: the
shipped code leaves strings, regexes and arrays as `throw new
Error("unimplemented")` (`parser.ts` lines 214-216 — the intended
collaborator constructors are commented out there) and rejects anything
that is not a `Parser` (line 218). -/
def unlazyCheck : LazyP2 → Except RErr Nat
  | .one (.str _) => .error (.msg "unimplemented")
  | .one (.regex _) => .error (.msg "unimplemented")
  | .arr _ => .error (.msg "unimplemented")
  | .one (.parser pid) => .ok pid
  | .one (.other r _) => .error (.msg ("Unable to resolve parser: " ++ r))

/-- Models `unlazy(parser, functionCache)` (`parser.ts` lines 197-220): force a
thunk, then apply the implicit conversions. -/
def unlazy (l : LazyP) (rs : RSt) : (Except RErr Nat) × RSt :=
  let vrs := forceThunk l rs
  (unlazyCheck vrs.1, vrs.2)

/-- Models `(this.options.children || []).map(p => unlazy(p, functionCache))`
(`parser.ts` line 100): sequential, aborting at the first throw. -/
def unlazyList : List LazyP → RSt → (Except RErr (List Nat)) × RSt
  | [], rs => (.ok [], rs)
  | l :: ls, rs =>
    match unlazy l rs with
    | (.error e, rs₁) => (.error e, rs₁)
    | (.ok p, rs₁) =>
      match unlazyList ls rs₁ with
      | (.error e, rs₂) => (.error e, rs₂)
      | (.ok ps, rs₂) => (.ok (p :: ps), rs₂)

/-! ### `getDescription` (`parser.ts` lines 131-142) -/

/-- One child's entry in the description list (line 136-138): parenthesize
when the child has more than one resolved child. -/
def descKids (gd : Nat → St → String × St) : List Nat → St → List String × St
  | [], s => ([], s)
  | c :: cs, s =>
    let paren : Bool := (pch s c).isSome && decide (1 < ((pch s c).getD []).length)
    let r₁ := gd c s
    let r₂ := descKids gd cs r₁.2
    ((if paren then "(" ++ r₁.1 ++ ")" else r₁.1) :: r₂.1, r₂.2)

/-- Models `getDescription`: return a memoized description (JS-truthy test, so an
empty stored description is recomputed), short-circuit with "..." while
already recursing, otherwise describe the children with the recursing flag
set and combine through `options.describe` or `defaultDescribe`.  The
recursion is fueled; the flag discipline bounds the real descent depth by
the number of parsers, so `resolve` passes fuel `nextId + 2`. -/
def getDescF : Nat → Nat → St → String × St
  | 0, _, s => ("", s)
  | d + 1, p, s =>
    if optStrTruthy (pdesc s p) then ((pdesc s p).getD "", s)
    else if p ∈ s.recs then ("...", s)
    else
      let s₁ : St := { s with recs := p :: s.recs }
      let r := descKids (getDescF d) ((pch s₁ p).getD []) s₁
      let s₃ : St := { r.2 with recs := r.2.recs.erase p }
      let desc :=
        match fget s₃.dfns p with
        | some f => f r.1
        | none => defaultDescribe (pname s₃ p) r.1
      (desc, psetDesc s₃ p desc)

/-! ### `resolve` (`parser.ts` lines 95-129) -/

/-- Models `this.children.map(p => p.resolve(functionCache))` (line 101),
parametrized by the recursive call. -/
def resolveListW (res : Nat → RSt → (Except RErr Nat) × RSt) :
    List Nat → RSt → (Except RErr (List Nat)) × RSt
  | [], rs => (.ok [], rs)
  | c :: cs, rs =>
    match res c rs with
    | (.error e, rs₁) => (.error e, rs₁)
    | (.ok q, rs₁) =>
      match resolveListW res cs rs₁ with
      | (.error e, rs₂) => (.error e, rs₂)
      | (.ok qs, rs₂) => (.ok (q :: qs), rs₂)

/-- The cache-key computation (`parser.ts` lines 109-116): a cacheable
leaf gets `name + ":" + quote(description)`, a cacheable interior node
gets `name + "(" + quoted child keys + ")"` provided every child received
a key; otherwise no key is assigned. -/
def computeKey (p : Nat) (nm : String) (cs : List Nat) (st₅ : St) : St :=
  if pcacheable st₅ p then
    if cs.isEmpty then
      psetKey st₅ p (nm ++ ":" ++ quote ((pdesc st₅ p).getD ""))
    else if cs.all (fun c => (pko st₅ c).isSome) then
      psetKey st₅ p
        (nm ++ "(" ++ String.intercalate "," (cs.map (fun c => quote ((pko st₅ c).getD ""))) ++ ")")
    else st₅
  else st₅

/-- Lines 118-128: when a (JS-truthy) cache key was computed, return the
`__cache` hit or register this node; in all normal-return cases generate
the matcher and drop the options for the returned `this`. -/
def registerOrHit (p : Nat) (rs₃ : RSt) (st₆ : St) : (Except RErr Nat) × RSt :=
  if optStrTruthy (pko st₆ p) then
    match fget st₆.cache ((pko st₆ p).getD "") with
    | some q => (.ok q, { rs₃ with st := st₆ })
    | none =>
      (.ok p, { rs₃ with st := pfinish (cinsert st₆ ((pko st₆ p).getD "") p) p })
  else (.ok p, { rs₃ with st := pfinish st₆ p })

/-- The tail of `resolve` after the children are fully resolved to `cs`
(`parser.ts` lines 101-128): store the resolved children (line 101's
assignment), compute the description (line 107), compute the cache key
(lines 109-116), then canonicalize and finish (lines 118-128). -/
def cacheFinish (p : Nat) (nm : String) (cs : List Nat) (rs₃ : RSt) :
    (Except RErr Nat) × RSt :=
  registerOrHit p rs₃
    (computeKey p nm cs
      (getDescF ((psetChs rs₃.st p cs).nextId + 2) p (psetChs rs₃.st p cs)).2)

/-- The body of `resolve` past the early returns (`parser.ts` lines
99-128): force the lazy children (line 100's assignment lands before line
101's recursion, and a throw from line 100 leaves `children` unset),
resolve them recursively, annotating any thrown message with this node's
name (lines 102-104), then `cacheFinish`. -/
def resolveCore (res : Nat → RSt → (Except RErr Nat) × RSt) (p : Nat) (rs : RSt) :
    (Except RErr Nat) × RSt :=
  match unlazyList (poptC rs.st p) rs with
  | (.error e, rs₁) => (.error (annotateE e (pname rs.st p)), rs₁)
  | (.ok lps, rs₁) =>
    match resolveListW res lps ⟨rs₁.fc, psetChs rs₁.st p lps⟩ with
    | (.error e, rs₃) => (.error (annotateE e (pname rs.st p)), rs₃)
    | (.ok cs, rs₃) => cacheFinish p (pname rs.st p) cs rs₃

/-- One unfolding of `Parser.resolve` with the recursive occurrence
abstracted: line 96 (canonical early return through `__cache`, JS-truthy
key test), line 97 (already-resolved early return), then the body. -/
def resolveStep (res : Nat → RSt → (Except RErr Nat) × RSt) (p : Nat) (rs : RSt) :
    (Except RErr Nat) × RSt :=
  if optStrTruthy (pko rs.st p) then
    match fget rs.st.cache ((pko rs.st p).getD "") with
    | some q => (.ok q, rs)
    | none => (.error .undef, rs)
  else if (pch rs.st p).isSome then (.ok p, rs)
  else resolveCore res p rs

/-- Models `Parser.resolve`, fueled (the flag/cache discipline that terminates
the JS original is not structural). -/
def resolveF : Nat → Nat → RSt → (Except RErr Nat) × RSt
  | 0, _, rs => (.error .fuel, rs)
  | fuel + 1, p, rs => resolveStep (resolveF fuel) p rs

/-- Models `p.resolve()` with the default fresh `functionCache = {}`
(`parser.ts` line 95). -/
def resolveTop (fuel : Nat) (p : Nat) (s : St) : (Except RErr Nat) × RSt :=
  resolveF fuel p ⟨[], s⟩

/-! ### The `Parser` constructor (`parser.ts` lines 77-83) -/

/-- Models `new Parser(name, options, generateMatcher)`: the node receives
`this.id = ParserId++` and its options are stored; the matcher generator
belongs to the absent matcher module. -/
def mkParser (name : String) (o : POpt) (dfn : Option (List String → String)) (s : St) :
    Nat × St :=
  let id := s.nextId
  (id,
    { s with
      nextId := s.nextId + 1,
      names := (id, name) :: s.names,
      opts := (id, o) :: s.opts,
      dfns :=
        match dfn with
        | some f => (id, f) :: s.dfns
        | none => s.dfns })

/-- A batch of constructions, in order. -/
def mkParsers : List (String × POpt) → St → List Nat × St
  | [], s => ([], s)
  | (n, o) :: rest, s =>
    let r₁ := mkParser n o none s
    let r₂ := mkParsers rest r₁.2
    (r₁.1 :: r₂.1, r₂.2)

/-! ### Concrete grammars used to instantiate the theorems -/

/-- Two independently constructed cacheable leaf parsers with the same
name `"end"`, as `simple.end()` would build twice. -/
def stLeafPair : St :=
  (mkParsers [("end", ⟨some [], true⟩), ("end", ⟨some [], true⟩)] initSt).2

/-- Builds `chain("abc", "123", …)` from the repository's own test
(`src/unnamed/part_000`): an implicit string-literal grammar. -/
def stStrChain : St :=
  (mkParser "chain" ⟨some [.p2 (.one (.str "abc")), .p2 (.one (.str "123"))], false⟩
    none initSt).2

/-- A combinator whose lazy child is unresolvable junk (JS `null`). -/
def stJunkChild : St :=
  (mkParser "alt" ⟨some [.p2 (.one (.other "null" false))], false⟩ none initSt).2

/-- Parser 1 references thunk 0 from two positions; the thunk returns the
leaf parser 2. -/
def stSharedThunk : St :=
  let a := mkParser "chain" ⟨some [.thunk 0, .thunk 0], true⟩ none initSt
  let b := mkParser "leaf" ⟨some [], true⟩ none a.2
  { b.2 with thunks := [(0, ⟨none, .one (.parser 2), 0⟩)] }

/-- A single cacheable leaf named `"leaf"`. -/
def stOneLeaf : St :=
  (mkParser "leaf" ⟨some [], true⟩ none initSt).2

/-- The world after resolving the first `"end"` leaf of `stLeafPair`. -/
def stLeafPairR1 : St := (resolveF 2 1 ⟨[], stLeafPair⟩).2.st

/-- The world after resolving the `"leaf"` parser of `stOneLeaf`. -/
def stOneLeafR : St := (resolveTop 2 1 stOneLeaf).2.st

/-- Equality of every parser-heap column, the `ParserId` counter and the
canonicalization cache between two states: what the thunk-forcing phase
leaves untouched. -/
def pfieldsEq (s s₁ : St) : Prop :=
  s₁.nextId = s.nextId ∧ s₁.names = s.names ∧ s₁.opts = s.opts ∧ s₁.dfns = s.dfns ∧
    s₁.chs = s.chs ∧ s₁.descs = s.descs ∧ s₁.ckeys = s.ckeys ∧ s₁.recs = s.recs ∧
    s₁.matchers = s.matchers ∧ s₁.cache = s.cache

/-- Equality of everything `getDescription` leaves untouched (it only
writes `description` memos and toggles `recursing` flags). -/
def dfieldsEq (s s₁ : St) : Prop :=
  s₁.nextId = s.nextId ∧ s₁.names = s.names ∧ s₁.opts = s.opts ∧ s₁.dfns = s.dfns ∧
    s₁.chs = s.chs ∧ s₁.ckeys = s.ckeys ∧ s₁.matchers = s.matchers ∧
    s₁.cache = s.cache ∧ s₁.nextLazyId = s.nextLazyId ∧ s₁.thunks = s.thunks

/-- Well-formedness of the global state — the inductive invariant of
resolution: key lists are duplicate-free; parser ids precede the
`ParserId` counter; a set `cacheKey` is nonempty and has a `__cache`
entry under it (the invariant behind claim C9); every `__cache` entry
points to a parser carrying exactly that key, with children set; thunk
tags precede the `LazyId` counter and are injective. -/
def WFb (s : St) : Prop :=
  (s.names.map Prod.fst).Nodup ∧
    (s.cache.map Prod.fst).Nodup ∧
    (s.thunks.map Prod.fst).Nodup ∧
    (∀ e ∈ s.names, e.1 < s.nextId) ∧
    (∀ e ∈ s.ckeys, e.2 ≠ "" ∧ (fget s.cache e.2).isSome = true) ∧
    (∀ e ∈ s.cache, fget s.ckeys e.2 = some e.1 ∧ (fget s.chs e.2).isSome = true) ∧
    (∀ e ∈ s.thunks, ∀ g, e.2.tag = some g → g < s.nextLazyId) ∧
    (∀ e ∈ s.thunks, ∀ e₁ ∈ s.thunks, ∀ g,
      e.2.tag = some g → e₁.2.tag = some g → e.1 = e₁.1)

instance decForallSomeTag (o : Option Nat) (P : Nat → Prop) [∀ g, Decidable (P g)] :
    Decidable (∀ g, o = some g → P g) :=
  match o with
  | none => isTrue (fun _ h => nomatch h)
  | some g₀ =>
    if h : P g₀ then isTrue (fun g hg => by cases hg; exact h)
    else isFalse (fun hall => h (hall g₀ rfl))

instance decWFb (s : St) : Decidable (WFb s) := by
  unfold WFb
  infer_instance

/-- Returns `true` when the result is a normal return (no throw). -/
def eok {α : Type} : Except RErr α → Bool
  | .ok _ => true
  | .error _ => false

/-- The thunk `t` currently has a tag with a JS-truthy entry in the
per-pass function cache — once this holds, `unlazy` will never invoke `t`
again in this pass. -/
def cachedTruthyB (rs : RSt) (t : Nat) : Bool :=
  (((ttag rs.st t).bind (fun g => fget rs.fc g)).map jsTruthy2).getD false

/-- Per-thunk accounting across one computation step: counts are
monotone; a truthy function-cache entry persists; counts grow by at most
one, and not at all when the entry was already truthy; and a normally
completed step that did invoke a thunk leaves a truthy entry behind. -/
def cntInv (rs rs₁ : RSt) (ok : Bool) : Prop :=
  ∀ t : Nat,
    tcount rs.st t ≤ tcount rs₁.st t ∧
      (cachedTruthyB rs t = true → cachedTruthyB rs₁ t = true) ∧
      tcount rs₁.st t ≤ tcount rs.st t + (if cachedTruthyB rs t then 0 else 1) ∧
      (ok = true → tcount rs.st t < tcount rs₁.st t → cachedTruthyB rs₁ t = true)

/-- The canonicalization cache only grows (no eviction, spec section 3). -/
def cacheMono (s s₁ : St) : Prop :=
  ∀ k v, fget s.cache k = some v → fget s₁.cache k = some v

/-- A parser whose `children` are set keeps its `children` and `cacheKey`
untouched by further resolution: its own `resolve` early-returns. -/
def frozenP (s s₁ : St) : Prop :=
  ∀ x : Nat, (pch s x).isSome = true → pch s₁ x = pch s x ∧ pko s₁ x = pko s x

/-- Like `frozenP` but exempting the node currently being resolved. -/
def frozenExc (p : Nat) (s s₁ : St) : Prop :=
  ∀ x : Nat, x ≠ p → (pch s x).isSome = true → pch s₁ x = pch s x ∧ pko s₁ x = pko s x

/-- A normally returned parser is resolved, and canonical whenever it
carries a cache key: the `__cache` entry under that key is the parser
itself. -/
def canonP (s : St) (q : Nat) : Prop :=
  (pch s q).isSome = true ∧ ∀ k, pko s q = some k → fget s.cache k = some q

/-- What a successful `resolve` of `p` guarantees about `p` itself:
either `p` now carries a (nonempty) cache key whose `__cache` entry is
the returned parser, or the returned parser is `p` itself, key-less with
children set. -/
def postP (p : Nat) (s : St) (q : Nat) : Prop :=
  (∃ k, pko s p = some k ∧ k ≠ "" ∧ fget s.cache k = some q) ∨
    (q = p ∧ optStrTruthy (pko s p) = false ∧ (pch s p).isSome = true)

/-- The bundled induction hypotheses carried through `resolve`: from a
well-formed state, one resolution step preserves well-formedness, only
grows the cache, freezes already-resolved parsers, respects the
lazy-once accounting, and returns (when it returns) a canonical resolved
parser satisfying the registration postcondition. -/
def RProps (p : Nat) (rs : RSt) (out : (Except RErr Nat) × RSt) : Prop :=
  WFb rs.st →
    WFb out.2.st ∧
      cacheMono rs.st out.2.st ∧
      frozenP rs.st out.2.st ∧
      cntInv rs out.2 (eok out.1) ∧
      (∀ q, out.1 = .ok q → canonP out.2.st q ∧ postP p out.2.st q)

/-! ## Theorems -/

/-! ### Association-map lemmas -/

theorem fget_fset_self {κ α : Type} [DecidableEq κ] (l : List (κ × α)) (k : κ) (v : α) :
    fget (fset l k v) k = some v := by
  induction l with
  | nil => simp [fget, fset]
  | cons e rest ih =>
    rcases e with ⟨k₁, w⟩
    by_cases h : k = k₁ <;> simp [fget, fset, h, ih]

theorem fget_fset_ne {κ α : Type} [DecidableEq κ] (l : List (κ × α)) (k k₁ : κ) (v : α)
    (h : k₁ ≠ k) : fget (fset l k v) k₁ = fget l k₁ := by
  induction l with
  | nil => simp [fget, fset, h]
  | cons e rest ih =>
    rcases e with ⟨k₂, w⟩
    by_cases h₂ : k = k₂
    · subst h₂; simp [fget, fset, h]
    · by_cases h₃ : k₁ = k₂ <;> simp [fget, fset, h₂, h₃, ih]

theorem fget_fupd_self {κ α : Type} [DecidableEq κ] (l : List (κ × α)) (k : κ) (f : α → α) :
    fget (fupd l k f) k = (fget l k).map f := by
  induction l with
  | nil => simp [fget, fupd]
  | cons e rest ih =>
    rcases e with ⟨k₁, w⟩
    by_cases h : k = k₁ <;> simp [fget, fupd, h, ih]

theorem fget_fupd_ne {κ α : Type} [DecidableEq κ] (l : List (κ × α)) (k k₁ : κ) (f : α → α)
    (h : k₁ ≠ k) : fget (fupd l k f) k₁ = fget l k₁ := by
  induction l with
  | nil => simp [fget, fupd]
  | cons e rest ih =>
    rcases e with ⟨k₂, w⟩
    by_cases h₂ : k = k₂
    · subst h₂; simp [fget, fupd, h]
    · by_cases h₃ : k₁ = k₂ <;> simp [fget, fupd, h₂, h₃, ih]

theorem fget_mem {κ α : Type} [DecidableEq κ] {l : List (κ × α)} {k : κ} {v : α}
    (h : fget l k = some v) : (k, v) ∈ l := by
  induction l with
  | nil => simp [fget] at h
  | cons e rest ih =>
    rcases e with ⟨k₁, w⟩
    by_cases h₁ : k = k₁
    · subst h₁
      simp [fget] at h
      simp [h]
    · simp [fget, h₁] at h
      exact List.mem_cons_of_mem _ (ih h)

theorem fget_none_not_mem {κ α : Type} [DecidableEq κ] {l : List (κ × α)} {k : κ}
    (h : fget l k = none) : k ∉ l.map Prod.fst := by
  induction l with
  | nil => simp
  | cons e rest ih =>
    rcases e with ⟨k₁, w⟩
    by_cases h₁ : k = k₁
    · subst h₁; simp [fget] at h
    · simp [fget, h₁] at h
      simp [h₁, ih h]

theorem mem_fset {κ α : Type} [DecidableEq κ] {l : List (κ × α)} {k : κ} {v : α} {e : κ × α}
    (h : e ∈ fset l k v) : e = (k, v) ∨ e ∈ l := by
  induction l with
  | nil => simp [fset] at h; simp [h]
  | cons e₁ rest ih =>
    rcases e₁ with ⟨k₁, w⟩
    by_cases h₁ : k = k₁
    · subst h₁
      simp [fset] at h
      rcases h with h | h
      · exact Or.inl h
      · exact Or.inr (List.mem_cons_of_mem _ h)
    · simp [fset, h₁] at h
      rcases h with h | h
      · exact Or.inr (by simp [h])
      · rcases ih h with h₂ | h₂
        · exact Or.inl h₂
        · exact Or.inr (List.mem_cons_of_mem _ h₂)

theorem mem_fupd {κ α : Type} [DecidableEq κ] {l : List (κ × α)} {k : κ} {f : α → α}
    {e : κ × α} (h : e ∈ fupd l k f) : e ∈ l ∨ ∃ w, (k, w) ∈ l ∧ e = (k, f w) := by
  induction l with
  | nil => simp [fupd] at h
  | cons e₁ rest ih =>
    rcases e₁ with ⟨k₁, w₁⟩
    by_cases h₁ : k = k₁
    · subst h₁
      simp [fupd] at h
      rcases h with h | h
      · exact Or.inr ⟨w₁, by simp, h⟩
      · exact Or.inl (List.mem_cons_of_mem _ h)
    · simp [fupd, h₁] at h
      rcases h with h | h
      · exact Or.inl (by simp [h])
      · rcases ih h with h₂ | h₂
        · exact Or.inl (List.mem_cons_of_mem _ h₂)
        · rcases h₂ with ⟨w, hw, he⟩
          exact Or.inr ⟨w, List.mem_cons_of_mem _ hw, he⟩

theorem keys_fupd {κ α : Type} [DecidableEq κ] (l : List (κ × α)) (k : κ) (f : α → α) :
    (fupd l k f).map Prod.fst = l.map Prod.fst := by
  induction l with
  | nil => rfl
  | cons e rest ih =>
    rcases e with ⟨k₁, w⟩
    by_cases h : k = k₁ <;> simp [fupd, h, ih]

theorem keys_fset_nodup {κ α : Type} [DecidableEq κ] {l : List (κ × α)} (k : κ) (v : α)
    (h : (l.map Prod.fst).Nodup) : ((fset l k v).map Prod.fst).Nodup := by
  induction l with
  | nil => simp [fset]
  | cons e rest ih =>
    rcases e with ⟨k₁, w⟩
    simp only [List.map_cons, List.nodup_cons] at h
    unfold fset
    by_cases h₁ : k = k₁
    · rw [if_pos h₁]
      subst h₁
      simp only [List.map_cons, List.nodup_cons]
      exact ⟨h.1, h.2⟩
    · rw [if_neg h₁]
      simp only [List.map_cons, List.nodup_cons]
      refine ⟨?_, ih h.2⟩
      intro hmem
      rcases List.mem_map.mp hmem with ⟨e₁, he₁, hfst⟩
      rcases mem_fset he₁ with h₂ | h₂
      · apply h₁
        rw [h₂] at hfst
        exact hfst
      · exact h.1 (List.mem_map.mpr ⟨e₁, h₂, hfst⟩)

theorem mem_fdel {κ α : Type} [DecidableEq κ] {l : List (κ × α)} {k : κ} {e : κ × α}
    (h : e ∈ fdel l k) : e ∈ l := List.mem_of_mem_filter h

theorem fget_fdel_ne {κ α : Type} [DecidableEq κ] (l : List (κ × α)) (k k₁ : κ)
    (h : k₁ ≠ k) : fget (fdel l k) k₁ = fget l k₁ := by
  induction l with
  | nil => rfl
  | cons e rest ih =>
    rcases e with ⟨k₂, w⟩
    unfold fdel at ih ⊢
    rw [List.filter_cons]
    by_cases h₂ : k₂ = k
    · subst h₂
      rw [show (decide ((k₂, w).1 ≠ k₂)) = false by simp]
      simp only [Bool.false_eq_true, if_false]
      rw [ih, show fget ((k₂, w) :: rest) k₁ = fget rest k₁ from by simp [fget, h]]
    · rw [show (decide ((k₂, w).1 ≠ k)) = true by simp [h₂]]
      simp only [if_true]
      by_cases h₃ : k₁ = k₂
      · subst h₃; simp [fget]
      · simp [fget, h₃]
        simpa using ih

theorem pfieldsEq_refl (s : St) : pfieldsEq s s :=
  ⟨rfl, rfl, rfl, rfl, rfl, rfl, rfl, rfl, rfl, rfl⟩

theorem pfieldsEq_trans {s t u : St} (h₁ : pfieldsEq s t) (h₂ : pfieldsEq t u) :
    pfieldsEq s u := by
  obtain ⟨a1, a2, a3, a4, a5, a6, a7, a8, a9, a10⟩ := h₁
  obtain ⟨b1, b2, b3, b4, b5, b6, b7, b8, b9, b10⟩ := h₂
  exact ⟨b1.trans a1, b2.trans a2, b3.trans a3, b4.trans a4, b5.trans a5, b6.trans a6,
    b7.trans a7, b8.trans a8, b9.trans a9, b10.trans a10⟩

theorem pfieldsEq_pch {s s₁ : St} (h : pfieldsEq s s₁) (p : Nat) : pch s₁ p = pch s p := by
  unfold pch; rw [h.2.2.2.2.1]

theorem pfieldsEq_pko {s s₁ : St} (h : pfieldsEq s s₁) (p : Nat) : pko s₁ p = pko s p := by
  unfold pko; rw [h.2.2.2.2.2.2.1]

theorem pfieldsEq_pdesc {s s₁ : St} (h : pfieldsEq s s₁) (p : Nat) :
    pdesc s₁ p = pdesc s p := by
  unfold pdesc; rw [h.2.2.2.2.2.1]

theorem pfieldsEq_pname {s s₁ : St} (h : pfieldsEq s s₁) (p : Nat) :
    pname s₁ p = pname s p := by
  unfold pname; rw [h.2.1]

theorem assignTag_pfieldsEq (s : St) (t : Nat) : pfieldsEq s (assignTag s t) :=
  ⟨rfl, rfl, rfl, rfl, rfl, rfl, rfl, rfl, rfl, rfl⟩

theorem bumpCount_pfieldsEq (s : St) (t : Nat) : pfieldsEq s (bumpCount s t) :=
  ⟨rfl, rfl, rfl, rfl, rfl, rfl, rfl, rfl, rfl, rfl⟩

theorem fcLookup_pfieldsEq (tid g : Nat) (rsA : RSt) :
    pfieldsEq rsA.st (fcLookup tid g rsA).2.st := by
  unfold fcLookup
  rcases hfc : fget rsA.fc g with _ | w
  · exact bumpCount_pfieldsEq _ _
  · dsimp only
    split
    · exact pfieldsEq_refl _
    · exact bumpCount_pfieldsEq _ _

theorem forceThunk_pfieldsEq (l : LazyP) (rs : RSt) :
    pfieldsEq rs.st (forceThunk l rs).2.st := by
  cases l with
  | p2 v => exact pfieldsEq_refl _
  | thunk tid =>
    rcases htag : (tgetD rs.st tid).tag with _ | g0 <;>
      simp only [forceThunk, htag]
    · exact pfieldsEq_trans (assignTag_pfieldsEq rs.st tid)
        (fcLookup_pfieldsEq tid rs.st.nextLazyId _)
    · exact fcLookup_pfieldsEq tid g0 rs

theorem unlazy_snd (l : LazyP) (rs : RSt) : (unlazy l rs).2 = (forceThunk l rs).2 := rfl

theorem unlazy_pfieldsEq (l : LazyP) (rs : RSt) : pfieldsEq rs.st (unlazy l rs).2.st := by
  rw [unlazy_snd]; exact forceThunk_pfieldsEq l rs

theorem unlazyList_pfieldsEq (ls : List LazyP) (rs : RSt) :
    pfieldsEq rs.st (unlazyList ls rs).2.st := by
  induction ls generalizing rs with
  | nil => exact pfieldsEq_refl _
  | cons l ls ih =>
    unfold unlazyList
    rcases h : unlazy l rs with ⟨r, rs₁⟩
    have h₁ : pfieldsEq rs.st rs₁.st := by
      have := unlazy_pfieldsEq l rs; rwa [h] at this
    rcases r with e | p
    · exact h₁
    · dsimp only
      rcases h₂ : unlazyList ls rs₁ with ⟨r₂, rs₂⟩
      have h₃ : pfieldsEq rs₁.st rs₂.st := by
        have := ih rs₁; rwa [h₂] at this
      rcases r₂ with e | ps <;> exact pfieldsEq_trans h₁ h₃

/-- Every `Parser` construction takes `this.id = ParserId++` (`parser.ts`
lines 40, 82), so a batch of constructions yields the ids
`nextId, nextId+1, …` in order. -/
theorem mkParsers_ids (l : List (String × POpt)) (s : St) :
    (mkParsers l s).1 = List.range' s.nextId l.length ∧
      (mkParsers l s).2.nextId = s.nextId + l.length := by
  induction l generalizing s with
  | nil => exact ⟨rfl, rfl⟩
  | cons hd tl ih =>
    rcases hd with ⟨n, o⟩
    unfold mkParsers
    have h := ih (mkParser n o none s).2
    refine ⟨?_, ?_⟩
    · simp only [List.length_cons, List.range']
      rw [h.1]; rfl
    · rw [h.2]; simp [mkParser]; omega

/-- C10: `ParserId` starts at 1 and is incremented at every construction,
so every constructed `Parser` receives a distinct positive id, strictly
increasing with construction order. -/
theorem parser_ids_positive_distinct_increasing (l : List (String × POpt)) (s : St)
    (h : 1 ≤ s.nextId) :
    (mkParsers l s).1.Pairwise (· < ·) ∧ (∀ i ∈ (mkParsers l s).1, 0 < i) ∧
      (mkParsers l s).1.Nodup := by
  obtain ⟨hids, -⟩ := mkParsers_ids l s
  rw [hids]
  refine ⟨List.pairwise_lt_range' _ _, ?_,
    (List.pairwise_lt_range' _ _).imp fun hlt => Nat.ne_of_lt hlt⟩
  intro i hi
  rw [List.mem_range'_1] at hi
  omega

/-- Witness for C10 at the initial state and two constructions. -/
theorem parser_ids_positive_distinct_increasing_witness :
    1 ≤ initSt.nextId ∧
      ((mkParsers [("alt", ⟨none, false⟩), ("seq", ⟨none, true⟩)] initSt).1.Pairwise (· < ·) ∧
        (∀ i ∈ (mkParsers [("alt", ⟨none, false⟩), ("seq", ⟨none, true⟩)] initSt).1, 0 < i) ∧
        (mkParsers [("alt", ⟨none, false⟩), ("seq", ⟨none, true⟩)] initSt).1.Nodup) :=
  ⟨by decide,
    parser_ids_positive_distinct_increasing
      [("alt", ⟨none, false⟩), ("seq", ⟨none, true⟩)] initSt (by decide)⟩

/-- C5: `execute` returns a `Match` value by type (the engine, an absent
collaborator, produces one and `execute` hands it back, `parser.ts` lines
144-146); `run` (lines 154-164) converts exactly a `MatchFailure` into a
thrown `ParseError` carrying that failure's message and span, and returns
the value of a `MatchSuccess` directly. -/
theorem run_throws_exactly_on_failure (m : String) (sp sp₁ : Span) (v : JSVal) :
    runOf (Match.failure m sp : Match JSVal) = Except.error (⟨m, sp⟩ : ParseError) ∧
      runOf (Match.success sp₁ v : Match JSVal) = Except.ok v :=
  ⟨rfl, rfl⟩

/-- C7: a transform returning the distinguished reject sentinel converts
the success into a `MatchFailure` anchored at the original match's span. -/
theorem map_reject_sentinel_forces_failure (f : MapFn JSVal JSVal) (sp : Span) (v : JSVal)
    (h : applyMapFn f v sp = JSVal.vreject) :
    mapStep f (Match.success sp v) = Match.failure "rejected" sp := by
  simp [mapStep, mapMatch, rejectFilter, h]

/-- Witness for C7: a constant-reject transform on a concrete success. -/
theorem map_reject_sentinel_forces_failure_witness :
    applyMapFn (MapFn.const JSVal.vreject) JSVal.vnull ⟨0, 2⟩ = JSVal.vreject ∧
      mapStep (MapFn.const JSVal.vreject) (Match.success ⟨0, 2⟩ JSVal.vnull) =
        Match.failure "rejected" ⟨0, 2⟩ :=
  ⟨rfl, map_reject_sentinel_forces_failure (MapFn.const JSVal.vreject) ⟨0, 2⟩ JSVal.vnull rfl⟩

/-- C8 as stated is falsified by the reject sentinel: with the
non-callable transform `f = reject`, the claim demands
`MatchSuccess(span, f)`, but the result is the reject conversion's
`MatchFailure`. -/
theorem map_claim_counterexample_on_reject :
    mapStep (MapFn.const JSVal.vreject) (Match.success ⟨0, 1⟩ JSVal.vnull) ≠
      Match.success ⟨0, 1⟩
        (applyMapFn (MapFn.const JSVal.vreject) JSVal.vnull ⟨0, 1⟩) := by
  decide

/-- C8 amended: when the transformed value is not the reject sentinel,
`map` keeps the span and replaces the value with `f(value, span)` (or the
constant `f`); a `MatchFailure` passes through unchanged. -/
theorem map_transform_success_and_passthrough_failure (f : MapFn JSVal JSVal)
    (sp sp₁ : Span) (v : JSVal) (m : String)
    (h : applyMapFn f v sp ≠ JSVal.vreject) :
    mapStep f (Match.success sp v) = Match.success sp (applyMapFn f v sp) ∧
      mapStep f (Match.failure m sp₁) = Match.failure m sp₁ := by
  constructor
  · unfold mapStep mapMatch rejectFilter
    simp [h]
  · rfl

/-- Witness for C8 (amended) with a callable transform. -/
theorem map_transform_success_and_passthrough_failure_witness :
    applyMapFn (MapFn.fn fun _ _ => JSVal.vstr "x") JSVal.vnull ⟨1, 3⟩ ≠ JSVal.vreject ∧
      (mapStep (MapFn.fn fun _ _ => JSVal.vstr "x") (Match.success ⟨1, 3⟩ JSVal.vnull) =
          Match.success ⟨1, 3⟩
            (applyMapFn (MapFn.fn fun _ _ => JSVal.vstr "x") JSVal.vnull ⟨1, 3⟩) ∧
        mapStep (MapFn.fn fun _ _ => JSVal.vstr "x") (Match.failure "nope" ⟨0, 0⟩) =
          Match.failure "nope" ⟨0, 0⟩) :=
  ⟨by simp [applyMapFn],
    map_transform_success_and_passthrough_failure (MapFn.fn fun _ _ => JSVal.vstr "x")
      ⟨1, 3⟩ ⟨0, 0⟩ JSVal.vnull "nope" (by simp [applyMapFn])⟩

/-- C4 (code bug): resolving the repository's own test grammar
`chain("abc", "123", …)` does not convert the string literals into leaf
parsers — `unlazy` hits `throw new Error("unimplemented")` (`parser.ts`
line 214) and `resolve` fails, annotated with the combinator name. -/
theorem string_literal_child_throws_unimplemented :
    (resolveTop 3 1 stStrChain).1 =
      Except.error (RErr.msg "unimplemented (inside chain)") := by
  rfl

/-- C6: when forcing or converting one of a node's lazy children throws
(here covering line 218's unresolvable-reference error and lines 214-216),
`resolve` rethrows with the message annotated by appending
`" (inside " + name + ")"` (lines 102-104), the whole resolution fails,
and the failing node retains no partial resolution state: line 100's
assignment never happened, so its `children`, `cacheKey` and
`description` are untouched. -/
theorem resolve_annotates_error_and_retains_no_state (p : Nat) (fc : List (Nat × LazyP2))
    (s : St) (fuel : Nat) (m : String) (rs₁ : RSt)
    (hko : pko s p = none) (hch : pch s p = none)
    (hul : unlazyList (poptC s p) ⟨fc, s⟩ = (.error (.msg m), rs₁)) :
    resolveF (fuel + 1) p ⟨fc, s⟩ =
        (.error (.msg (m ++ " (inside " ++ pname s p ++ ")")), rs₁) ∧
      pch rs₁.st p = none ∧ pko rs₁.st p = none ∧ pdesc rs₁.st p = pdesc s p := by
  have hfields : pfieldsEq s rs₁.st := by
    have h := unlazyList_pfieldsEq (poptC s p) ⟨fc, s⟩
    rwa [hul] at h
  refine ⟨?_, ?_, ?_, ?_⟩
  · show resolveStep (resolveF fuel) p ⟨fc, s⟩ = _
    unfold resolveStep resolveCore
    rw [show pko (⟨fc, s⟩ : RSt).st p = none from hko]
    rw [show pch (⟨fc, s⟩ : RSt).st p = none from hch]
    simp only [optStrTruthy, Option.isSome_none, Bool.false_eq_true, if_false]
    rw [show poptC (⟨fc, s⟩ : RSt).st p = poptC s p from rfl, hul]
    rfl
  · rw [pfieldsEq_pch hfields, hch]
  · rw [pfieldsEq_pko hfields, hko]
  · rw [pfieldsEq_pdesc hfields]

/-- Witness for C6 on the junk-child grammar: the child is neither a
Parser, a literal, an array nor a thunk. -/
theorem resolve_annotates_error_and_retains_no_state_witness :
    pko stJunkChild 1 = none ∧ pch stJunkChild 1 = none ∧
      unlazyList (poptC stJunkChild 1) ⟨[], stJunkChild⟩ =
        (.error (.msg "Unable to resolve parser: null"), ⟨[], stJunkChild⟩) ∧
      (resolveF 4 1 ⟨[], stJunkChild⟩ =
          (.error
            (.msg ("Unable to resolve parser: null" ++ " (inside " ++
              pname stJunkChild 1 ++ ")")),
            (⟨[], stJunkChild⟩ : RSt)) ∧
        pch (⟨[], stJunkChild⟩ : RSt).st 1 = none ∧
        pko (⟨[], stJunkChild⟩ : RSt).st 1 = none ∧
        pdesc (⟨[], stJunkChild⟩ : RSt).st 1 = pdesc stJunkChild 1) :=
  ⟨rfl, rfl, rfl,
    resolve_annotates_error_and_retains_no_state 1 [] stJunkChild 3
      "Unable to resolve parser: null" ⟨[], stJunkChild⟩ rfl rfl rfl⟩

/-! ### The description pass only writes description memos and flags -/

theorem dfieldsEq_refl (s : St) : dfieldsEq s s :=
  ⟨rfl, rfl, rfl, rfl, rfl, rfl, rfl, rfl, rfl, rfl⟩

theorem dfieldsEq_trans {s t u : St} (h₁ : dfieldsEq s t) (h₂ : dfieldsEq t u) :
    dfieldsEq s u := by
  obtain ⟨a1, a2, a3, a4, a5, a6, a7, a8, a9, a10⟩ := h₁
  obtain ⟨b1, b2, b3, b4, b5, b6, b7, b8, b9, b10⟩ := h₂
  exact ⟨b1.trans a1, b2.trans a2, b3.trans a3, b4.trans a4, b5.trans a5, b6.trans a6,
    b7.trans a7, b8.trans a8, b9.trans a9, b10.trans a10⟩

theorem psetDesc_dfieldsEq (s : St) (p : Nat) (d : String) :
    dfieldsEq s (psetDesc s p d) :=
  ⟨rfl, rfl, rfl, rfl, rfl, rfl, rfl, rfl, rfl, rfl⟩

theorem recsSet_dfieldsEq (s : St) (r : List Nat) : dfieldsEq s { s with recs := r } :=
  ⟨rfl, rfl, rfl, rfl, rfl, rfl, rfl, rfl, rfl, rfl⟩

theorem descKids_dfieldsEq (gd : Nat → St → String × St)
    (hgd : ∀ c s, dfieldsEq s (gd c s).2) :
    ∀ cs s, dfieldsEq s (descKids gd cs s).2 := by
  intro cs
  induction cs with
  | nil => intro s; exact dfieldsEq_refl s
  | cons c rest ih =>
    intro s
    unfold descKids
    exact dfieldsEq_trans (hgd c s) (ih (gd c s).2)

theorem getDescF_dfieldsEq : ∀ (d p : Nat) (s : St), dfieldsEq s (getDescF d p s).2 := by
  intro d
  induction d with
  | zero => intro p s; exact dfieldsEq_refl s
  | succ d ih =>
    intro p s
    unfold getDescF
    by_cases h₁ : optStrTruthy (pdesc s p) = true
    · rw [if_pos h₁]; exact dfieldsEq_refl s
    · rw [if_neg h₁]
      by_cases h₂ : p ∈ s.recs
      · rw [if_pos h₂]; exact dfieldsEq_refl s
      · rw [if_neg h₂]
        exact
          dfieldsEq_trans (recsSet_dfieldsEq s (p :: s.recs))
            (dfieldsEq_trans
              (descKids_dfieldsEq (getDescF d) (fun c s₀ => ih c s₀)
                ((pch { s with recs := p :: s.recs } p).getD [])
                { s with recs := p :: s.recs })
              (dfieldsEq_trans
                (recsSet_dfieldsEq
                  (descKids (getDescF d) ((pch { s with recs := p :: s.recs } p).getD [])
                    { s with recs := p :: s.recs }).2
                  ((descKids (getDescF d) ((pch { s with recs := p :: s.recs } p).getD [])
                    { s with recs := p :: s.recs }).2.recs.erase p))
                (psetDesc_dfieldsEq _ p _)))

theorem WFb_of_dfieldsEq {s s₁ : St} (h : dfieldsEq s s₁) (hw : WFb s) : WFb s₁ := by
  obtain ⟨h1, h2, h3, h4, h5, h6, h7, h8, h9, h10⟩ := h
  unfold WFb at hw ⊢
  rw [h1, h2, h5, h6, h8, h9, h10]
  exact hw

/-! ### Thunk-heap projections under tag assignment and invocation -/

theorem ttag_bumpCount (s : St) (tid x : Nat) : ttag (bumpCount s tid) x = ttag s x := by
  unfold ttag tgetD bumpCount
  by_cases h : x = tid
  · subst h
    rw [fget_fupd_self]
    cases fget s.thunks x <;> rfl
  · rw [fget_fupd_ne _ _ _ _ h]

theorem tcount_bumpCount_ne (s : St) (tid x : Nat) (h : x ≠ tid) :
    tcount (bumpCount s tid) x = tcount s x := by
  unfold tcount tgetD bumpCount
  rw [fget_fupd_ne _ _ _ _ h]

theorem tcount_bumpCount_self (s : St) (tid : Nat) :
    tcount s tid ≤ tcount (bumpCount s tid) tid ∧
      tcount (bumpCount s tid) tid ≤ tcount s tid + 1 := by
  unfold tcount tgetD bumpCount
  rw [fget_fupd_self]
  cases fget s.thunks tid <;> simp

theorem tbody_bumpCount (s : St) (tid x : Nat) :
    (tgetD (bumpCount s tid) x).tbody = (tgetD s x).tbody := by
  unfold tgetD bumpCount
  by_cases h : x = tid
  · subst h
    rw [fget_fupd_self]
    cases fget s.thunks x <;> rfl
  · rw [fget_fupd_ne _ _ _ _ h]

theorem ttag_assignTag_ne (s : St) (tid x : Nat) (h : x ≠ tid) :
    ttag (assignTag s tid) x = ttag s x := by
  unfold ttag tgetD assignTag
  rw [fget_fupd_ne _ _ _ _ h]

theorem ttag_assignTag_self (s : St) (tid : Nat) :
    ttag (assignTag s tid) tid = (fget s.thunks tid).map fun _ => s.nextLazyId := by
  unfold ttag tgetD assignTag
  rw [fget_fupd_self]
  cases fget s.thunks tid <;> rfl

theorem tcount_assignTag (s : St) (tid x : Nat) :
    tcount (assignTag s tid) x = tcount s x := by
  unfold tcount tgetD assignTag
  by_cases h : x = tid
  · subst h
    rw [fget_fupd_self]
    cases fget s.thunks x <;> rfl
  · rw [fget_fupd_ne _ _ _ _ h]

theorem tbody_assignTag (s : St) (tid x : Nat) :
    (tgetD (assignTag s tid) x).tbody = (tgetD s x).tbody := by
  unfold tgetD assignTag
  by_cases h : x = tid
  · subst h
    rw [fget_fupd_self]
    cases fget s.thunks x <;> rfl
  · rw [fget_fupd_ne _ _ _ _ h]

/-! ### `unlazy` preserves well-formedness -/

theorem WFb_bumpCount {s : St} (tid : Nat) (h : WFb s) : WFb (bumpCount s tid) := by
  obtain ⟨h1, h2, h3, h4, h5, h6, h7, h8⟩ := h
  refine ⟨h1, h2, ?_, h4, h5, h6, ?_, ?_⟩
  · show ((fupd s.thunks tid _).map Prod.fst).Nodup
    rw [keys_fupd]; exact h3
  · intro e he g htag
    rcases mem_fupd he with ha | ⟨w, hw, ha⟩
    · exact h7 e ha g htag
    · subst ha
      exact h7 (tid, w) hw g htag
  · intro e he e₁ he₁ g ha hb
    rcases mem_fupd he with hm | ⟨w, hw, hm⟩ <;>
      rcases mem_fupd he₁ with hm₁ | ⟨w₁, hw₁, hm₁⟩
    · exact h8 e hm e₁ hm₁ g ha hb
    · subst hm₁; exact h8 e hm (tid, w₁) hw₁ g ha hb
    · subst hm; exact h8 (tid, w) hw e₁ hm₁ g ha hb
    · subst hm; subst hm₁; rfl

theorem WFb_assignTag {s : St} (tid : Nat) (h : WFb s) : WFb (assignTag s tid) := by
  obtain ⟨h1, h2, h3, h4, h5, h6, h7, h8⟩ := h
  refine ⟨h1, h2, ?_, h4, h5, h6, ?_, ?_⟩
  · show ((fupd s.thunks tid _).map Prod.fst).Nodup
    rw [keys_fupd]; exact h3
  · intro e he g htag
    rcases mem_fupd he with ha | ⟨w, hw, ha⟩
    · exact Nat.lt_succ_of_lt (h7 e ha g htag)
    · subst ha
      have hg : s.nextLazyId = g := by
        simpa using htag
      rw [← hg]
      exact Nat.lt_succ_self _
  · intro e he e₁ he₁ g ha hb
    rcases mem_fupd he with hm | ⟨w, hw, hm⟩ <;>
      rcases mem_fupd he₁ with hm₁ | ⟨w₁, hw₁, hm₁⟩
    · exact h8 e hm e₁ hm₁ g ha hb
    · subst hm₁
      exfalso
      have hg : s.nextLazyId = g := by simpa using hb
      have := h7 e hm g ha
      omega
    · subst hm
      exfalso
      have hg : s.nextLazyId = g := by simpa using ha
      have := h7 e₁ hm₁ g hb
      omega
    · subst hm; subst hm₁; rfl

theorem WFb_fcLookup {rsA : RSt} (tid g : Nat) (h : WFb rsA.st) :
    WFb (fcLookup tid g rsA).2.st := by
  unfold fcLookup
  rcases hfc : fget rsA.fc g with _ | w
  · exact WFb_bumpCount tid h
  · dsimp only
    split
    · exact h
    · exact WFb_bumpCount tid h

theorem WFb_forceThunk {rs : RSt} (l : LazyP) (h : WFb rs.st) :
    WFb (forceThunk l rs).2.st := by
  cases l with
  | p2 v => exact h
  | thunk tid =>
    rcases htag : (tgetD rs.st tid).tag with _ | g0 <;>
      simp only [forceThunk, htag]
    · exact WFb_fcLookup tid rs.st.nextLazyId (WFb_assignTag tid h)
    · exact WFb_fcLookup tid g0 h

theorem WFb_unlazy {rs : RSt} (l : LazyP) (h : WFb rs.st) : WFb (unlazy l rs).2.st := by
  rw [unlazy_snd]; exact WFb_forceThunk l h

theorem WFb_unlazyList {ls : List LazyP} {rs : RSt} (h : WFb rs.st) :
    WFb (unlazyList ls rs).2.st := by
  induction ls generalizing rs with
  | nil => exact h
  | cons l ls ih =>
    unfold unlazyList
    rcases hu : unlazy l rs with ⟨r, rs₁⟩
    have h₁ : WFb rs₁.st := by
      have := WFb_unlazy l h; rwa [hu] at this
    rcases r with e | p
    · exact h₁
    · dsimp only
      rcases h₂ : unlazyList ls rs₁ with ⟨r₂, rs₂⟩
      have h₃ : WFb rs₂.st := by
        have := ih h₁; rwa [h₂] at this
      rcases r₂ with e | ps <;> exact h₃

/-! ### The lazy-once accounting -/

theorem cntInv_refl (rs : RSt) (ok : Bool) : cntInv rs rs ok := by
  intro t
  refine ⟨le_refl _, fun h => h, ?_, fun _ h => absurd h (lt_irrefl _)⟩
  split <;> omega

theorem cntInv_false {rs rs₁ : RSt} {ok : Bool} (h : cntInv rs rs₁ ok) :
    cntInv rs rs₁ false := by
  intro t
  obtain ⟨a, b, c, -⟩ := h t
  exact ⟨a, b, c, fun hfb => absurd hfb (by simp)⟩

theorem cntInv_comp {rs rs₁ rs₂ : RSt} {ok₂ : Bool}
    (h₁ : cntInv rs rs₁ true) (h₂ : cntInv rs₁ rs₂ ok₂) : cntInv rs rs₂ ok₂ := by
  intro t
  obtain ⟨a1, a2, a3, a4⟩ := h₁ t
  obtain ⟨b1, b2, b3, b4⟩ := h₂ t
  refine ⟨a1.trans b1, fun h => b2 (a2 h), ?_, ?_⟩
  · by_cases hc : cachedTruthyB rs t = true
    · have hc₁ : cachedTruthyB rs₁ t = true := a2 hc
      rw [if_pos hc]
      rw [if_pos hc] at a3
      rw [if_pos hc₁] at b3
      omega
    · rw [if_neg hc]
      rw [if_neg hc] at a3
      by_cases hinc : tcount rs.st t < tcount rs₁.st t
      · have hc₁ : cachedTruthyB rs₁ t = true := a4 rfl hinc
        rw [if_pos hc₁] at b3
        omega
      · have heq : tcount rs₁.st t = tcount rs.st t := by omega
        by_cases hc₁ : cachedTruthyB rs₁ t = true
        · rw [if_pos hc₁] at b3; omega
        · rw [if_neg hc₁] at b3; omega
  · intro hok hlt
    by_cases hinc : tcount rs₁.st t < tcount rs₂.st t
    · exact b4 hok hinc
    · have h₃ : tcount rs.st t < tcount rs₁.st t := by omega
      exact b2 (a4 rfl h₃)

theorem cachedTruthyB_iff {rs : RSt} {t : Nat} :
    cachedTruthyB rs t = true ↔
      ∃ g v, ttag rs.st t = some g ∧ fget rs.fc g = some v ∧ jsTruthy2 v = true := by
  unfold cachedTruthyB
  rcases htg : ttag rs.st t with _ | g
  · simp
  · rcases hv : fget rs.fc g with _ | v
    · simp [hv]
    · simp [hv]

/-- The heart of the lazy-once property at the level of one
function-cache consultation: under freshness/injectivity of the tag `g`,
counts are monotone, grow by at most one (not at all when the cache
already held a truthy value for the thunk), truthy entries persist, and
any invocation either stores a truthy value under the tag or returns a
falsy value (which the implicit checks will reject). -/
theorem fcLookup_cnt (tid g : Nat) (rs rsA : RSt)
    (hfc : rsA.fc = rs.fc)
    (hcnt : ∀ x, tcount rsA.st x = tcount rs.st x)
    (htagne : ∀ x, x ≠ tid → ttag rsA.st x = ttag rs.st x)
    (htid : ttag rsA.st tid = some g ∨ fget rsA.st.thunks tid = none)
    (habs : fget rsA.st.thunks tid = none → fget rs.st.thunks tid = none)
    (htidtag : ttag rs.st tid = some g ∨ ttag rs.st tid = none)
    (hfresh : ∀ x gx, x ≠ tid → ttag rs.st x = some gx → gx ≠ g) (t : Nat) :
    tcount rs.st t ≤ tcount (fcLookup tid g rsA).2.st t ∧
      (cachedTruthyB rs t = true → cachedTruthyB (fcLookup tid g rsA).2 t = true) ∧
      tcount (fcLookup tid g rsA).2.st t ≤
        tcount rs.st t + (if cachedTruthyB rs t then 0 else 1) ∧
      (tcount rs.st t < tcount (fcLookup tid g rsA).2.st t →
        cachedTruthyB (fcLookup tid g rsA).2 t = true ∨
          jsTruthy2 (fcLookup tid g rsA).1 = false) := by
  -- the tid cannot already have a truthy cache entry when the lookup misses
  have hctid_of_miss :
      (fget rsA.fc g = none ∨ ∃ w, fget rsA.fc g = some w ∧ jsTruthy2 w = false) →
        cachedTruthyB rs tid = false := by
    intro hmiss
    rcases htidtag with ht | ht
    · rcases hmiss with hm | ⟨w, hm, hw⟩
      · rw [hfc] at hm
        simp [cachedTruthyB, ht, hm]
      · rw [hfc] at hm
        simp [cachedTruthyB, ht, hm, hw]
    · simp [cachedTruthyB, ht]
  -- the invoked-branch conclusion, shared between the miss and falsy-hit cases
  have hinv :
      (fget rsA.fc g = none ∨ ∃ w, fget rsA.fc g = some w ∧ jsTruthy2 w = false) →
      tcount rs.st t ≤
          tcount (bumpCount rsA.st tid) t ∧
        (cachedTruthyB rs t = true →
          cachedTruthyB
            ⟨fset rsA.fc g (tgetD rsA.st tid).tbody, bumpCount rsA.st tid⟩ t = true) ∧
        tcount (bumpCount rsA.st tid) t ≤
          tcount rs.st t + (if cachedTruthyB rs t then 0 else 1) ∧
        (tcount rs.st t < tcount (bumpCount rsA.st tid) t →
          cachedTruthyB
              ⟨fset rsA.fc g (tgetD rsA.st tid).tbody, bumpCount rsA.st tid⟩ t = true ∨
            jsTruthy2 (tgetD rsA.st tid).tbody = false) := by
    intro hmiss
    by_cases hteq : t = tid
    · subst hteq
      have hct : cachedTruthyB rs t = false := hctid_of_miss hmiss
      refine ⟨?_, ?_, ?_, ?_⟩
      · rw [← hcnt t]
        exact (tcount_bumpCount_self rsA.st t).1
      · intro h; rw [hct] at h; cases h
      · rw [hct]
        simp only [Bool.false_eq_true, if_false]
        have h₁ := (tcount_bumpCount_self rsA.st t).2
        have h₂ := hcnt t
        omega
      · intro hlt
        rcases habsent : fget rsA.st.thunks t with _ | w₀
        · exfalso
          have heq : tcount (bumpCount rsA.st t) t = tcount rsA.st t := by
            unfold tcount tgetD bumpCount
            rw [fget_fupd_self, habsent]
            rfl
          rw [heq, hcnt t] at hlt
          exact absurd hlt (lt_irrefl _)
        · rcases htid with htid | htid
          · by_cases hb : jsTruthy2 (tgetD rsA.st t).tbody = true
            · left
              rw [cachedTruthyB_iff]
              refine ⟨g, (tgetD rsA.st t).tbody, ?_, ?_, hb⟩
              · show ttag (bumpCount rsA.st t) t = some g
                rw [ttag_bumpCount]; exact htid
              · exact fget_fset_self _ _ _
            · right
              simp only [Bool.not_eq_true] at hb
              exact hb
          · rw [htid] at habsent; cases habsent
    · -- a different thunk: counts unchanged, truthiness preserved
      have hc₁ : tcount (bumpCount rsA.st tid) t = tcount rs.st t := by
        rw [tcount_bumpCount_ne _ _ _ hteq, hcnt t]
      refine ⟨le_of_eq hc₁.symm, ?_, ?_, ?_⟩
      · intro hct
        obtain ⟨gt, v, htg, hv, hvt⟩ := cachedTruthyB_iff.mp hct
        rw [cachedTruthyB_iff]
        refine ⟨gt, v, ?_, ?_, hvt⟩
        · show ttag (bumpCount rsA.st tid) t = some gt
          rw [ttag_bumpCount, htagne t hteq, htg]
        · have hne : gt ≠ g := hfresh t gt hteq htg
          show fget (fset rsA.fc g (tgetD rsA.st tid).tbody) gt = some v
          rw [fget_fset_ne _ _ _ _ hne, hfc]
          exact hv
      · rw [hc₁]; split <;> omega
      · intro hlt; rw [hc₁] at hlt; exact absurd hlt (lt_irrefl _)
  unfold fcLookup
  rcases hlook : fget rsA.fc g with _ | w
  · exact hinv (Or.inl hlook)
  · dsimp only
    by_cases hw : jsTruthy2 w = true
    · rw [if_pos hw]
      refine ⟨le_of_eq (hcnt t).symm, ?_, ?_, ?_⟩
      · intro hct
        by_cases hteq : t = tid
        · subst hteq
          rcases htid with htid | htid
          · rw [cachedTruthyB_iff]
            exact ⟨g, w, htid, hlook, hw⟩
          · exfalso
            have habs₂ : fget rs.st.thunks t = none := habs htid
            have hnone : ttag rs.st t = none := by
              unfold ttag tgetD; rw [habs₂]; rfl
            obtain ⟨gt, v, htg, -, -⟩ := cachedTruthyB_iff.mp hct
            rw [hnone] at htg; cases htg
        · obtain ⟨gt, v, htg, hv, hvt⟩ := cachedTruthyB_iff.mp hct
          rw [cachedTruthyB_iff]
          exact ⟨gt, v, (htagne t hteq).trans htg, hfc ▸ hv, hvt⟩
      · rw [hcnt t]; split <;> omega
      · intro hlt; rw [hcnt t] at hlt; exact absurd hlt (lt_irrefl _)
    · rw [if_neg hw]
      exact hinv (Or.inr ⟨w, hlook, by simpa using hw⟩)

theorem ttag_some_mem {s : St} {x g : Nat} (h : ttag s x = some g) :
    ∃ obj, fget s.thunks x = some obj ∧ obj.tag = some g := by
  unfold ttag tgetD at h
  rcases hx : fget s.thunks x with _ | obj
  · rw [hx] at h; simp at h
  · rw [hx] at h; exact ⟨obj, rfl, h⟩

theorem forceThunk_cnt (l : LazyP) (rs : RSt) (hw : WFb rs.st) (t : Nat) :
    tcount rs.st t ≤ tcount (forceThunk l rs).2.st t ∧
      (cachedTruthyB rs t = true → cachedTruthyB (forceThunk l rs).2 t = true) ∧
      tcount (forceThunk l rs).2.st t ≤
        tcount rs.st t + (if cachedTruthyB rs t then 0 else 1) ∧
      (tcount rs.st t < tcount (forceThunk l rs).2.st t →
        cachedTruthyB (forceThunk l rs).2 t = true ∨
          jsTruthy2 (forceThunk l rs).1 = false) := by
  obtain ⟨-, -, -, -, -, -, h7, h8⟩ := hw
  cases l with
  | p2 v =>
    refine ⟨le_refl _, fun h => h, ?_, ?_⟩
    · show tcount rs.st t ≤ tcount rs.st t + if cachedTruthyB rs t then 0 else 1
      split <;> omega
    · intro h
      exact absurd (h : tcount rs.st t < tcount rs.st t) (lt_irrefl _)
  | thunk tid =>
    rcases htag : (tgetD rs.st tid).tag with _ | g0 <;> simp only [forceThunk, htag]
    · -- first sight: assign a fresh tag, then consult the cache
      apply fcLookup_cnt tid rs.st.nextLazyId rs ⟨rs.fc, assignTag rs.st tid⟩
      · rfl
      · intro x; exact tcount_assignTag rs.st tid x
      · intro x hx; exact ttag_assignTag_ne rs.st tid x hx
      · rcases hpres : fget rs.st.thunks tid with _ | w
        · right
          show fget (fupd rs.st.thunks tid _) tid = none
          rw [fget_fupd_self, hpres]; rfl
        · left
          show ttag (assignTag rs.st tid) tid = some rs.st.nextLazyId
          rw [ttag_assignTag_self, hpres]; rfl
      · intro habsent
        rcases hpres : fget rs.st.thunks tid with _ | w
        · rfl
        · exfalso
          have heq : fget (assignTag rs.st tid).thunks tid =
              (fget rs.st.thunks tid).map fun o => { o with tag := some rs.st.nextLazyId } :=
            fget_fupd_self _ _ _
          rw [habsent, hpres] at heq; cases heq
      · right; exact htag
      · intro x gx hx htgx heq
        obtain ⟨ox, hox, hoxt⟩ := ttag_some_mem htgx
        have hlt := h7 (x, ox) (fget_mem hox) gx hoxt
        omega
    · -- the thunk already has its tag
      apply fcLookup_cnt tid g0 rs rs
      · rfl
      · intro x; rfl
      · intro x hx; rfl
      · left; exact htag
      · intro h; exact h
      · left; exact htag
      · intro x gx hx htgx heq
        obtain ⟨ox, hox, hoxt⟩ := ttag_some_mem htgx
        obtain ⟨ot, hot, hott⟩ := ttag_some_mem (htag : ttag rs.st tid = some g0)
        rw [heq] at hoxt
        exact hx (h8 (x, ox) (fget_mem hox) (tid, ot) (fget_mem hot) g0 hoxt hott)

theorem eok_unlazyCheck_truthy {v : LazyP2} (h : eok (unlazyCheck v) = true) :
    jsTruthy2 v = true := by
  rcases v with w | vs
  · rcases w with pid | s | r | ⟨r, tb⟩
    · rfl
    · exact absurd h (by simp [unlazyCheck, eok])
    · exact absurd h (by simp [unlazyCheck, eok])
    · exact absurd h (by simp [unlazyCheck, eok])
  · exact absurd h (by simp [unlazyCheck, eok])

theorem unlazy_cntInv (l : LazyP) (rs : RSt) (hw : WFb rs.st) :
    cntInv rs (unlazy l rs).2 (eok (unlazy l rs).1) := by
  intro t
  obtain ⟨m, pres, bound, third⟩ := forceThunk_cnt l rs hw t
  have hsnd : (unlazy l rs).2 = (forceThunk l rs).2 := unlazy_snd l rs
  rw [hsnd]
  refine ⟨m, pres, bound, ?_⟩
  intro hok hlt
  rcases third hlt with h | h
  · exact h
  · exfalso
    have hok₂ : eok (unlazyCheck (forceThunk l rs).1) = true := hok
    rw [eok_unlazyCheck_truthy hok₂] at h
    cases h

theorem unlazyList_cntInv : ∀ (ls : List LazyP) (rs : RSt), WFb rs.st →
    cntInv rs (unlazyList ls rs).2 (eok (unlazyList ls rs).1) := by
  intro ls
  induction ls with
  | nil => intro rs hw; exact cntInv_refl rs _
  | cons l rest ih =>
    intro rs hw
    unfold unlazyList
    rcases hu : unlazy l rs with ⟨r, rs₁⟩
    have hcnt₁ := unlazy_cntInv l rs hw
    rw [hu] at hcnt₁
    have hw₁ : WFb rs₁.st := by
      have := WFb_unlazy l hw; rwa [hu] at this
    rcases r with e | p
    · exact cntInv_false hcnt₁
    · dsimp only
      rcases h₂ : unlazyList rest rs₁ with ⟨r₂, rs₂⟩
      have hcnt₂ := ih rs₁ hw₁
      rw [h₂] at hcnt₂
      rcases r₂ with e | ps
      · exact cntInv_comp hcnt₁ (cntInv_false hcnt₂)
      · exact cntInv_comp hcnt₁ hcnt₂

/-! ### Relational glue -/

theorem pfieldsEq_cacheMono {s s₁ : St} (h : pfieldsEq s s₁) : cacheMono s s₁ := by
  intro k v hv
  rw [h.2.2.2.2.2.2.2.2.2]
  exact hv

theorem pfieldsEq_frozenP {s s₁ : St} (h : pfieldsEq s s₁) : frozenP s s₁ :=
  fun x _ => ⟨pfieldsEq_pch h x, pfieldsEq_pko h x⟩

theorem cacheMono_trans {s t u : St} (a : cacheMono s t) (b : cacheMono t u) :
    cacheMono s u := fun k v h => b k v (a k v h)

theorem frozenP_trans {s t u : St} (a : frozenP s t) (b : frozenP t u) :
    frozenP s u := by
  intro x hx
  obtain ⟨h1, h2⟩ := a x hx
  have hx₁ : (pch t x).isSome = true := by rw [h1]; exact hx
  obtain ⟨h3, h4⟩ := b x hx₁
  exact ⟨h3.trans h1, h4.trans h2⟩

theorem cacheMono_of_eq {s s₁ : St} (h : s₁.cache = s.cache) : cacheMono s s₁ := by
  intro k v hv
  rw [h]
  exact hv

theorem cntInv_of_eq {rs rs₁ : RSt} (hfc : rs₁.fc = rs.fc)
    (hth : rs₁.st.thunks = rs.st.thunks) (ok : Bool) : cntInv rs rs₁ ok := by
  have hc : ∀ t, tcount rs₁.st t = tcount rs.st t := by
    intro t; unfold tcount tgetD; rw [hth]
  have hct : ∀ t, cachedTruthyB rs₁ t = cachedTruthyB rs t := by
    intro t; unfold cachedTruthyB ttag tgetD; rw [hth, hfc]
  intro t
  refine ⟨le_of_eq (hc t).symm, ?_, ?_, ?_⟩
  · intro h; rw [hct t]; exact h
  · rw [hc t]; split <;> omega
  · intro _ hlt; rw [hc t] at hlt; exact absurd hlt (lt_irrefl _)

/-! ### Resolving the children list preserves the bundle -/

theorem resolveListW_props (res : Nat → RSt → (Except RErr Nat) × RSt)
    (H : ∀ p rs, RProps p rs (res p rs)) :
    ∀ (cs : List Nat) (rs : RSt), WFb rs.st →
      WFb (resolveListW res cs rs).2.st ∧
        cacheMono rs.st (resolveListW res cs rs).2.st ∧
        frozenP rs.st (resolveListW res cs rs).2.st ∧
        cntInv rs (resolveListW res cs rs).2 (eok (resolveListW res cs rs).1) := by
  intro cs
  induction cs with
  | nil =>
    intro rs hw
    exact ⟨hw, fun k v h => h, fun x _ => ⟨rfl, rfl⟩, cntInv_refl rs _⟩
  | cons c rest ih =>
    intro rs hw
    unfold resolveListW
    rcases hr : res c rs with ⟨r, rs₁⟩
    have hH := H c rs hw
    rw [hr] at hH
    obtain ⟨hW, hM, hF, hC, -⟩ := hH
    rcases r with e | q
    · exact ⟨hW, hM, hF, cntInv_false hC⟩
    · dsimp only
      rcases h₂ : resolveListW res rest rs₁ with ⟨r₂, rs₂⟩
      have hIH := ih rs₁ hW
      rw [h₂] at hIH
      obtain ⟨iW, iM, iF, iC⟩ := hIH
      rcases r₂ with e | qs
      · exact ⟨iW, cacheMono_trans hM iM, frozenP_trans hF iF,
          cntInv_comp hC (cntInv_false iC)⟩
      · exact ⟨iW, cacheMono_trans hM iM, frozenP_trans hF iF, cntInv_comp hC iC⟩

/-! ### Cache keys are never the empty string -/

theorem append_right_ne_empty (a b : String) (hb : 0 < b.length) : a ++ b ≠ "" := by
  intro h
  have hl := congrArg String.length h
  rw [String.length_append] at hl
  have hz : ("" : String).length = 0 := rfl
  omega

theorem quote_length_pos (s : String) : 0 < (quote s).length := by
  unfold quote
  rw [String.length_append, String.length_append]
  have h1 : ("\"" : String).length = 1 := rfl
  omega

theorem leafKey_ne_empty (nm d : String) : nm ++ ":" ++ quote d ≠ "" :=
  append_right_ne_empty _ _ (quote_length_pos d)

theorem nodeKey_ne_empty (nm j : String) : nm ++ "(" ++ j ++ ")" ≠ "" :=
  append_right_ne_empty _ _ (by rw [show (")" : String).length = 1 from rfl]; omega)

/-- The function `computeKey` either leaves the state alone or assigns one nonempty
cache key to `p`. -/
theorem computeKey_cases (p : Nat) (nm : String) (cs : List Nat) (st₅ : St) :
    computeKey p nm cs st₅ = st₅ ∨
      ∃ k, k ≠ "" ∧ computeKey p nm cs st₅ = psetKey st₅ p k := by
  unfold computeKey
  by_cases h₁ : pcacheable st₅ p = true
  · rw [if_pos h₁]
    by_cases h₂ : cs.isEmpty = true
    · rw [if_pos h₂]
      exact Or.inr ⟨_, leafKey_ne_empty nm _, rfl⟩
    · rw [if_neg h₂]
      by_cases h₃ : cs.all (fun c => (pko st₅ c).isSome) = true
      · rw [if_pos h₃]
        exact Or.inr ⟨_, nodeKey_ne_empty nm _, rfl⟩
      · rw [if_neg h₃]
        exact Or.inl rfl
  · rw [if_neg h₁]
    exact Or.inl rfl

/-! ### Canonical registration -/

theorem fget_cons_self {κ α : Type} [DecidableEq κ] (l : List (κ × α)) (k : κ) (v : α) :
    fget ((k, v) :: l) k = some v := by
  unfold fget
  rw [if_pos rfl]

theorem fget_cons_ne {κ α : Type} [DecidableEq κ] (l : List (κ × α)) (k k₁ : κ) (v : α)
    (h : k₁ ≠ k) : fget ((k, v) :: l) k₁ = fget l k₁ := by
  show (if k₁ = k then some v else fget l k₁) = fget l k₁
  rw [if_neg h]

theorem optStrTruthy_some {k : String} (hk : k ≠ "") : optStrTruthy (some k) = true := by
  show (if k = "" then false else true) = true
  rw [if_neg hk]

/-- A parser with no cache key is not a value of the canonicalization
cache (WFb's cache-entry component). -/
theorem not_cache_value {s : St} {p : Nat} (hw : WFb s) (hpko : pko s p = none) :
    ∀ e ∈ s.cache, e.2 ≠ p := by
  intro e he heq
  have h6 := hw.2.2.2.2.2.1 e he
  rw [heq] at h6
  rw [show fget s.ckeys p = none from hpko] at h6
  cases h6.1

theorem WFb_pfinish {s : St} (p : Nat) (h : WFb s) : WFb (pfinish s p) := h

theorem WFb_psetChs {s : St} {p : Nat} (cs : List Nat) (hw : WFb s)
    (hpko : pko s p = none) : WFb (psetChs s p cs) := by
  obtain ⟨h1, h2, h3, h4, h5, h6, h7, h8⟩ := hw
  refine ⟨h1, h2, h3, h4, h5, ?_, h7, h8⟩
  intro e he
  obtain ⟨ha, hb⟩ := h6 e he
  refine ⟨ha, ?_⟩
  have hne : e.2 ≠ p := not_cache_value ⟨h1, h2, h3, h4, h5, h6, h7, h8⟩ hpko e he
  show (fget (fset s.chs p cs) e.2).isSome = true
  rw [fget_fset_ne _ _ _ _ hne]
  exact hb

/-- Lines 118-128 when no (truthy) key was computed: finish and return
`this`. -/
theorem registerOrHit_nokey (p : Nat) (rs₃ : RSt) (st₆ : St)
    (hw : WFb st₆) (hpko : pko st₆ p = none) (hch : (pch st₆ p).isSome = true) :
    registerOrHit p rs₃ st₆ = (.ok p, ⟨rs₃.fc, pfinish st₆ p⟩) ∧
      WFb (pfinish st₆ p) ∧
      (pfinish st₆ p).cache = st₆.cache ∧
      canonP (pfinish st₆ p) p ∧ postP p (pfinish st₆ p) p ∧
      (∀ x, pch (pfinish st₆ p) x = pch st₆ x ∧ pko (pfinish st₆ p) x = pko st₆ x) := by
  have hfalse : optStrTruthy (pko st₆ p) = false := by rw [hpko]; rfl
  refine ⟨?_, WFb_pfinish p hw, rfl, ⟨hch, ?_⟩, Or.inr ⟨rfl, ?_, hch⟩, fun x => ⟨rfl, rfl⟩⟩
  · unfold registerOrHit
    rw [hfalse]
    rfl
  · intro k hk
    rw [show pko (pfinish st₆ p) p = pko st₆ p from rfl, hpko] at hk
    cases hk
  · show optStrTruthy (pko st₆ p) = false
    exact hfalse

/-- Lines 118-128 when a nonempty key `k` was just assigned to `p`:
either the `__cache` hit is returned, or `p` is registered and returned;
in both cases the result is canonical and the bundle facts hold relative
to the pre-key state. -/
theorem registerOrHit_key (p : Nat) (rs₃ : RSt) (st₅ : St) (k : String)
    (hw : WFb st₅) (hpko : pko st₅ p = none) (hch : (pch st₅ p).isSome = true)
    (hk : k ≠ "") :
    ∃ q rsF, registerOrHit p rs₃ (psetKey st₅ p k) = (.ok q, rsF) ∧
      rsF.fc = rs₃.fc ∧
      WFb rsF.st ∧
      cacheMono st₅ rsF.st ∧
      (∀ x, x ≠ p → pch rsF.st x = pch st₅ x ∧ pko rsF.st x = pko st₅ x) ∧
      rsF.st.thunks = st₅.thunks ∧
      canonP rsF.st q ∧ postP p rsF.st q := by
  obtain ⟨h1, h2, h3, h4, h5, h6, h7, h8⟩ := hw
  have hwAll : WFb st₅ := ⟨h1, h2, h3, h4, h5, h6, h7, h8⟩
  have hpkop : pko (psetKey st₅ p k) p = some k := fget_fset_self _ _ _
  have htru : optStrTruthy (pko (psetKey st₅ p k) p) = true := by
    rw [hpkop]; exact optStrTruthy_some hk
  have hgetD : (pko (psetKey st₅ p k) p).getD "" = k := by rw [hpkop]; rfl
  have hnoval : ∀ e ∈ st₅.cache, e.2 ≠ p := not_cache_value hwAll hpko
  unfold registerOrHit
  rw [htru, hgetD]
  rcases hlook : fget (psetKey st₅ p k).cache k with _ | q
  · -- miss: register p under k, then finish
    have hlook₅ : fget st₅.cache k = none := hlook
    have hnotmem : k ∉ st₅.cache.map Prod.fst := fget_none_not_mem hlook₅
    have hpkoF : pko (pfinish (cinsert (psetKey st₅ p k) k p) p) p = some k :=
      fget_fset_self _ _ _
    have hcacheF : fget (pfinish (cinsert (psetKey st₅ p k) k p) p).cache k = some p :=
      fget_cons_self _ _ _
    refine ⟨p, ⟨rs₃.fc, pfinish (cinsert (psetKey st₅ p k) k p) p⟩, rfl, rfl, ?_, ?_, ?_, rfl,
      ⟨hch, ?_⟩, Or.inl ⟨k, hpkoF, hk, hcacheF⟩⟩
    · -- WFb of the registered state
      refine ⟨h1, ?_, h3, h4, ?_, ?_, h7, h8⟩
      · show (k :: st₅.cache.map Prod.fst).Nodup
        exact List.nodup_cons.mpr ⟨hnotmem, h2⟩
      · intro e he
        rcases mem_fset he with he₁ | he₁
        · subst he₁
          refine ⟨hk, ?_⟩
          show (fget ((k, p) :: st₅.cache) k).isSome = true
          rw [fget_cons_self]
          rfl
        · obtain ⟨ha, hb⟩ := h5 e he₁
          refine ⟨ha, ?_⟩
          show (fget ((k, p) :: st₅.cache) e.2).isSome = true
          by_cases hke : e.2 = k
          · rw [hke, fget_cons_self]; rfl
          · rw [fget_cons_ne _ _ _ _ hke]; exact hb
      · intro e he
        rcases List.mem_cons.mp he with he₁ | he₁
        · subst he₁
          exact ⟨fget_fset_self _ _ _, hch⟩
        · obtain ⟨ha, hb⟩ := h6 e he₁
          have hne : e.2 ≠ p := hnoval e he₁
          constructor
          · show fget (fset st₅.ckeys p k) e.2 = some e.1
            rw [fget_fset_ne _ _ _ _ hne]; exact ha
          · exact hb
    · -- cacheMono: the register only prepends a fresh key
      intro k₁ v hv
      have hne : k₁ ≠ k := by
        intro heq
        rw [heq, hlook₅] at hv
        cases hv
      show fget ((k, p) :: st₅.cache) k₁ = some v
      rw [fget_cons_ne _ _ _ _ hne]
      exact hv
    · -- other parsers keep children and key
      intro x hx
      refine ⟨rfl, ?_⟩
      show fget (fset st₅.ckeys p k) x = pko st₅ x
      rw [fget_fset_ne _ _ _ _ hx]
      rfl
    · -- canonical: the registered entry is p itself
      intro k₁ hk₁
      have : some k = some k₁ := hpkoF.symm.trans hk₁
      cases this
      exact hcacheF
  · -- hit: return the canonical object already registered under k
    have hlook₅ : fget st₅.cache k = some q := hlook
    have hqmem : (k, q) ∈ st₅.cache := fget_mem hlook₅
    obtain ⟨hq6a, hq6b⟩ := h6 (k, q) hqmem
    have hqne : q ≠ p := hnoval (k, q) hqmem
    have hpkoq : pko (psetKey st₅ p k) q = some k := by
      show fget (fset st₅.ckeys p k) q = some k
      rw [fget_fset_ne _ _ _ _ hqne]
      exact hq6a
    refine ⟨q, ⟨rs₃.fc, psetKey st₅ p k⟩, rfl, rfl, ?_, cacheMono_of_eq rfl, ?_, rfl,
      ⟨hq6b, ?_⟩, Or.inl ⟨k, hpkop, hk, hlook₅⟩⟩
    · -- WFb: p's key points at the existing entry
      refine ⟨h1, h2, h3, h4, ?_, ?_, h7, h8⟩
      · intro e he
        rcases mem_fset he with he₁ | he₁
        · subst he₁
          refine ⟨hk, ?_⟩
          show (fget st₅.cache k).isSome = true
          rw [hlook₅]; rfl
        · exact h5 e he₁
      · intro e he
        obtain ⟨ha, hb⟩ := h6 e he
        have hne : e.2 ≠ p := hnoval e he
        constructor
        · show fget (fset st₅.ckeys p k) e.2 = some e.1
          rw [fget_fset_ne _ _ _ _ hne]; exact ha
        · exact hb
    · intro x hx
      refine ⟨rfl, ?_⟩
      show fget (fset st₅.ckeys p k) x = pko st₅ x
      rw [fget_fset_ne _ _ _ _ hx]
      rfl
    · intro k₁ hk₁
      have : some k = some k₁ := hpkoq.symm.trans hk₁
      cases this
      exact hlook₅

/-- Lines 101-128 as a whole: from a well-formed state in which `p` has
no cache key, the tail of `resolve` returns normally with a canonical
parser, preserving the cache monotonically, other parsers' frozen fields,
the function cache and the thunk heap. -/
theorem cacheFinish_props (p : Nat) (nm : String) (cs : List Nat) (rs₃ : RSt)
    (hw : WFb rs₃.st) (hpko : pko rs₃.st p = none) :
    ∃ q rsF, cacheFinish p nm cs rs₃ = (.ok q, rsF) ∧
      rsF.fc = rs₃.fc ∧
      WFb rsF.st ∧
      cacheMono rs₃.st rsF.st ∧
      (∀ x, x ≠ p → pch rsF.st x = pch rs₃.st x ∧ pko rsF.st x = pko rs₃.st x) ∧
      rsF.st.thunks = rs₃.st.thunks ∧
      canonP rsF.st q ∧ postP p rsF.st q := by
  have hw₄ : WFb (psetChs rs₃.st p cs) := WFb_psetChs cs hw hpko
  have hdf := getDescF_dfieldsEq ((psetChs rs₃.st p cs).nextId + 2) p (psetChs rs₃.st p cs)
  unfold cacheFinish
  generalize hst₅ : (getDescF ((psetChs rs₃.st p cs).nextId + 2) p (psetChs rs₃.st p cs)).2
    = st₅
  rw [hst₅] at hdf
  have hck : st₅.ckeys = rs₃.st.ckeys := hdf.2.2.2.2.2.1
  have hch5 : st₅.chs = fset rs₃.st.chs p cs := hdf.2.2.2.2.1
  have hca : st₅.cache = rs₃.st.cache := hdf.2.2.2.2.2.2.2.1
  have hth : st₅.thunks = rs₃.st.thunks := hdf.2.2.2.2.2.2.2.2.2
  have hw₅ : WFb st₅ := WFb_of_dfieldsEq hdf hw₄
  have hpko₅ : pko st₅ p = none := by
    show fget st₅.ckeys p = none
    rw [hck]
    exact hpko
  have hch₅ : (pch st₅ p).isSome = true := by
    show (fget st₅.chs p).isSome = true
    rw [hch5, fget_fset_self]
    rfl
  rcases computeKey_cases p nm cs st₅ with hid | ⟨k, hk, hkey⟩
  · rw [hid]
    obtain ⟨heq, hwF, hcF, hcanF, hpostF, hfrF⟩ := registerOrHit_nokey p rs₃ st₅ hw₅ hpko₅ hch₅
    refine ⟨p, ⟨rs₃.fc, pfinish st₅ p⟩, heq, rfl, hwF, ?_, ?_, ?_, hcanF, hpostF⟩
    · exact cacheMono_of_eq (hcF.trans hca)
    · intro x hx
      obtain ⟨hc1, hc2⟩ := hfrF x
      constructor
      · rw [hc1]
        show fget st₅.chs x = pch rs₃.st x
        rw [hch5]
        exact fget_fset_ne _ _ _ _ hx
      · rw [hc2]
        show fget st₅.ckeys x = pko rs₃.st x
        rw [hck]
        rfl
    · show st₅.thunks = rs₃.st.thunks
      exact hth
  · rw [hkey]
    obtain ⟨q, rsF, heq, hfc, hwF, hmono, hfr, hthF, hcan, hpost⟩ :=
      registerOrHit_key p rs₃ st₅ k hw₅ hpko₅ hch₅ hk
    refine ⟨q, rsF, heq, hfc, hwF, ?_, ?_, hthF.trans hth, hcan, hpost⟩
    · intro k₁ v hv
      apply hmono k₁ v
      show fget st₅.cache k₁ = some v
      rw [hca]
      exact hv
    · intro x hx
      obtain ⟨hc1, hc2⟩ := hfr x hx
      constructor
      · rw [hc1]
        show fget st₅.chs x = pch rs₃.st x
        rw [hch5]
        exact fget_fset_ne _ _ _ _ hx
      · rw [hc2]
        show fget st₅.ckeys x = pko rs₃.st x
        rw [hck]
        rfl

/-! ### One unfolding of `resolve` preserves the bundle -/

theorem optStrTruthy_true {o : Option String} (h : optStrTruthy o = true) :
    ∃ k, o = some k ∧ k ≠ "" := by
  rcases o with _ | k
  · exact absurd h (by simp [optStrTruthy])
  · refine ⟨k, rfl, fun hk => ?_⟩
    subst hk
    exact absurd h (by simp [optStrTruthy])

theorem pko_none_of_not_truthy {s : St} {p : Nat} (hw : WFb s)
    (h : optStrTruthy (pko s p) ≠ true) : pko s p = none := by
  rcases hpk : pko s p with _ | k
  · rfl
  · exfalso
    have hmem : (p, k) ∈ s.ckeys := fget_mem hpk
    have hk : k ≠ "" := (hw.2.2.2.2.1 (p, k) hmem).1
    rw [hpk] at h
    exact h (optStrTruthy_some hk)

theorem resolveStep_props (res : Nat → RSt → (Except RErr Nat) × RSt)
    (H : ∀ p rs, RProps p rs (res p rs)) (p : Nat) (rs : RSt) :
    RProps p rs (resolveStep res p rs) := by
  intro hw
  unfold resolveStep
  by_cases h96 : optStrTruthy (pko rs.st p) = true
  · rw [if_pos h96]
    rcases hlk : fget rs.st.cache ((pko rs.st p).getD "") with _ | q
    · exact ⟨hw, fun k v h => h, fun x _ => ⟨rfl, rfl⟩, cntInv_refl rs _,
        fun q hq => by cases hq⟩
    · refine ⟨hw, fun k v h => h, fun x _ => ⟨rfl, rfl⟩, cntInv_refl rs _, ?_⟩
      intro q₁ hq
      cases hq
      obtain ⟨k, hpk, hkne⟩ := optStrTruthy_true h96
      rw [show (pko rs.st p).getD "" = k by rw [hpk]; rfl] at hlk
      have hmem := fget_mem hlk
      obtain ⟨h6a, h6b⟩ := hw.2.2.2.2.2.1 (k, q) hmem
      refine ⟨⟨h6b, ?_⟩, Or.inl ⟨k, hpk, hkne, hlk⟩⟩
      intro k₁ hk₁
      have heq₂ : some k = some k₁ := h6a.symm.trans hk₁
      cases heq₂
      exact hlk
  · rw [if_neg h96]
    by_cases h97 : (pch rs.st p).isSome = true
    · rw [if_pos h97]
      refine ⟨hw, fun k v h => h, fun x _ => ⟨rfl, rfl⟩, cntInv_refl rs _, ?_⟩
      intro q₁ hq
      cases hq
      have hpko : pko rs.st p = none := pko_none_of_not_truthy hw h96
      refine ⟨⟨h97, ?_⟩, Or.inr ⟨rfl, by rw [hpko]; rfl, h97⟩⟩
      intro k hk
      rw [hpko] at hk
      cases hk
    · rw [if_neg h97]
      -- the body: force children, resolve them, then cacheFinish
      unfold resolveCore
      rcases hul : unlazyList (poptC rs.st p) rs with ⟨rul, rs₁⟩
      have hpf₁ : pfieldsEq rs.st rs₁.st := by
        have h := unlazyList_pfieldsEq (poptC rs.st p) rs; rwa [hul] at h
      have hw₁ : WFb rs₁.st := by
        have h := @WFb_unlazyList (poptC rs.st p) rs hw; rwa [hul] at h
      have hcnt₁ : cntInv rs rs₁ (eok rul) := by
        have h := unlazyList_cntInv (poptC rs.st p) rs hw; rwa [hul] at h
      rcases rul with e | lps
      · exact ⟨hw₁, pfieldsEq_cacheMono hpf₁, pfieldsEq_frozenP hpf₁,
          cntInv_false hcnt₁, fun q hq => by cases hq⟩
      · dsimp only
        rcases hrl : resolveListW res lps ⟨rs₁.fc, psetChs rs₁.st p lps⟩ with ⟨rl, rs₃⟩
        have hpko₁ : pko rs₁.st p = none := by
          rw [pfieldsEq_pko hpf₁]
          exact pko_none_of_not_truthy hw h96
        have hw₂ : WFb (psetChs rs₁.st p lps) := WFb_psetChs lps hw₁ hpko₁
        have hlp := resolveListW_props res H lps ⟨rs₁.fc, psetChs rs₁.st p lps⟩ hw₂
        rw [hrl] at hlp
        obtain ⟨lW, lM, lF, lC⟩ := hlp
        have hch₂ : pch (psetChs rs₁.st p lps) p = some lps := fget_fset_self _ _ _
        have hcnt₂ : cntInv rs₁ ⟨rs₁.fc, psetChs rs₁.st p lps⟩ true :=
          cntInv_of_eq rfl rfl true
        -- frozen fields from the entry state through the children resolution
        have hfrozen₃ : ∀ x, (pch rs.st x).isSome = true →
            pch rs₃.st x = pch rs.st x ∧ pko rs₃.st x = pko rs.st x := by
          intro x hx
          have hxp : x ≠ p := fun heq => h97 (heq ▸ hx)
          obtain ⟨f1, f2⟩ := pfieldsEq_frozenP hpf₁ x hx
          have hx₂ : (pch (psetChs rs₁.st p lps) x).isSome = true := by
            show (fget (fset rs₁.st.chs p lps) x).isSome = true
            rw [fget_fset_ne _ _ _ _ hxp]
            rw [show fget rs₁.st.chs x = pch rs₁.st x from rfl, f1]
            exact hx
          obtain ⟨g1, g2⟩ := lF x hx₂
          constructor
          · rw [g1]
            show fget (fset rs₁.st.chs p lps) x = pch rs.st x
            rw [fget_fset_ne _ _ _ _ hxp]
            exact f1
          · rw [g2]
            show pko rs₁.st x = pko rs.st x
            exact f2
        have hmono₃ : cacheMono rs.st rs₃.st :=
          cacheMono_trans (pfieldsEq_cacheMono hpf₁)
            (cacheMono_trans (cacheMono_of_eq rfl) lM)
        rcases rl with e | cs
        · -- a child's resolve threw: annotate and rethrow
          exact ⟨lW, hmono₃, hfrozen₃,
            cntInv_false (cntInv_comp hcnt₁ (cntInv_comp hcnt₂ lC)),
            fun q hq => by cases hq⟩
        · -- all children resolved: run the tail
          have hpko₃ : pko rs₃.st p = none := by
            obtain ⟨-, g2⟩ := lF p (by rw [hch₂]; rfl)
            rw [g2]
            show pko rs₁.st p = none
            exact hpko₁
          obtain ⟨q, rsF, heqCF, hfcF, hwF, monoF, frF, thF, canF, postF⟩ :=
            cacheFinish_props p (pname rs.st p) cs rs₃ lW hpko₃
          have hfin : WFb (cacheFinish p (pname rs.st p) cs rs₃).2.st ∧
              cacheMono rs.st (cacheFinish p (pname rs.st p) cs rs₃).2.st ∧
              frozenP rs.st (cacheFinish p (pname rs.st p) cs rs₃).2.st ∧
              cntInv rs (cacheFinish p (pname rs.st p) cs rs₃).2
                (eok (cacheFinish p (pname rs.st p) cs rs₃).1) ∧
              (∀ q₂, (cacheFinish p (pname rs.st p) cs rs₃).1 = .ok q₂ →
                canonP (cacheFinish p (pname rs.st p) cs rs₃).2.st q₂ ∧
                  postP p (cacheFinish p (pname rs.st p) cs rs₃).2.st q₂) := by
            rw [heqCF]
            refine ⟨hwF, cacheMono_trans hmono₃ monoF, ?_, ?_, ?_⟩
            · intro x hx
              have hxp : x ≠ p := fun heq => h97 (heq ▸ hx)
              obtain ⟨f1, f2⟩ := hfrozen₃ x hx
              obtain ⟨g1, g2⟩ := frF x hxp
              exact ⟨g1.trans f1, g2.trans f2⟩
            · exact cntInv_comp hcnt₁
                (cntInv_comp hcnt₂ (cntInv_comp lC (cntInv_of_eq hfcF thF true)))
            · intro q₂ hq
              cases hq
              exact ⟨canF, postF⟩
          exact hfin

/-- The master induction: every run of `Parser.resolve` satisfies the
bundle. -/
theorem resolveF_props : ∀ (fuel p : Nat) (rs : RSt), RProps p rs (resolveF fuel p rs) := by
  intro fuel
  induction fuel with
  | zero =>
    intro p rs hw
    exact ⟨hw, fun k v h => h, fun x _ => ⟨rfl, rfl⟩, cntInv_refl rs _,
      fun q hq => by cases hq⟩
  | succ fuel ih =>
    intro p rs
    exact resolveStep_props (resolveF fuel) ih p rs

/-! ### The claims about `resolve` -/

/-- The early returns of `resolve` on an already-resolved parser: a
(nonempty) cache key yields the registered object, otherwise set children
yield the parser itself; the state is untouched. -/
theorem resolveF_quick (fuel : Nat) (fc : List (Nat × LazyP2)) (s : St) (x q : Nat)
    (hw : WFb s)
    (hx : (∃ k, pko s x = some k ∧ fget s.cache k = some q) ∨
      (x = q ∧ optStrTruthy (pko s x) = false ∧ (pch s x).isSome = true)) :
    resolveF (fuel + 1) x ⟨fc, s⟩ = (.ok q, ⟨fc, s⟩) := by
  show resolveStep (resolveF fuel) x ⟨fc, s⟩ = _
  unfold resolveStep
  rcases hx with ⟨k, hpk, hcache⟩ | ⟨heq, hfalse, hchs⟩
  · have hkne : k ≠ "" := (hw.2.2.2.2.1 (x, k) (fget_mem hpk)).1
    rw [show pko (⟨fc, s⟩ : RSt).st x = some k from hpk]
    rw [if_pos (optStrTruthy_some hkne)]
    rw [show ((some k : Option String)).getD "" = k from rfl]
    rw [show fget (⟨fc, s⟩ : RSt).st.cache k = some q from hcache]
  · rw [show pko (⟨fc, s⟩ : RSt).st x = pko s x from rfl, hfalse]
    rw [if_neg (by simp : ¬((false : Bool) = true))]
    rw [show pch (⟨fc, s⟩ : RSt).st x = pch s x from rfl]
    rw [if_pos hchs, heq]

/-- C2: `resolve()` is idempotent.  If a `resolve` call on `p` returned
the parser `q`, then calling `resolve()` on `p` again (with any fresh
function cache) returns the same object `q` without touching the state,
and so does calling `resolve()` on the already-resolved `q` itself. -/
theorem resolve_idempotent (fuel p : Nat) (fc : List (Nat × LazyP2)) (s : St) (q : Nat)
    (rs₁ : RSt) (hw : WFb s)
    (h : resolveF fuel p ⟨fc, s⟩ = (.ok q, rs₁)) :
    ∀ (fuel₁ : Nat) (fc₁ : List (Nat × LazyP2)),
      resolveF (fuel₁ + 1) p ⟨fc₁, rs₁.st⟩ = (.ok q, ⟨fc₁, rs₁.st⟩) ∧
        resolveF (fuel₁ + 1) q ⟨fc₁, rs₁.st⟩ = (.ok q, ⟨fc₁, rs₁.st⟩) := by
  intro fuel₁ fc₁
  have props := resolveF_props fuel p ⟨fc, s⟩ hw
  rw [h] at props
  obtain ⟨hW₁, -, -, -, hOk⟩ := props
  obtain ⟨hcanon, hpost⟩ := hOk q rfl
  constructor
  · rcases hpost with ⟨k, hpk, hkne, hcache⟩ | ⟨heqq, hfalse, hchs⟩
    · exact resolveF_quick fuel₁ fc₁ rs₁.st p q hW₁ (Or.inl ⟨k, hpk, hcache⟩)
    · exact resolveF_quick fuel₁ fc₁ rs₁.st p q hW₁ (Or.inr ⟨heqq.symm, hfalse, hchs⟩)
  · rcases hpq : pko rs₁.st q with _ | k
    · refine resolveF_quick fuel₁ fc₁ rs₁.st q q hW₁ (Or.inr ⟨rfl, ?_, hcanon.1⟩)
      rw [hpq]
      rfl
    · exact resolveF_quick fuel₁ fc₁ rs₁.st q q hW₁ (Or.inl ⟨k, hpq, hcanon.2 k hpq⟩)

/-- Witness for C2 on the `"end"` leaf pair. -/
theorem resolve_idempotent_witness :
    WFb stLeafPair ∧
      resolveF 2 1 ⟨[], stLeafPair⟩ = (.ok 1, ⟨[], stLeafPairR1⟩) ∧
      (resolveF 3 1 ⟨[], stLeafPairR1⟩ = (.ok 1, ⟨[], stLeafPairR1⟩) ∧
        resolveF 3 1 ⟨[], stLeafPairR1⟩ = (.ok 1, ⟨[], stLeafPairR1⟩)) :=
  ⟨by decide, rfl,
    resolve_idempotent 2 1 [] stLeafPair 1 ⟨[], stLeafPairR1⟩ (by decide) rfl 2 []⟩

/-- C1: equal cache keys mean the very same object.  If two `resolve`
calls from a well-formed world return parsers carrying the same cache
key, the returned parsers are one and the same object — the canonical
instance registered in the process-wide `__cache` under that key. -/
theorem canonicalization_same_object (p₁ p₂ f₁ f₂ : Nat)
    (fc₁ fc₂ : List (Nat × LazyP2)) (s₀ : St) (q₁ q₂ : Nat) (rs₁ rs₂ : RSt) (k : String)
    (hw : WFb s₀)
    (h₁ : resolveF f₁ p₁ ⟨fc₁, s₀⟩ = (.ok q₁, rs₁))
    (h₂ : resolveF f₂ p₂ ⟨fc₂, rs₁.st⟩ = (.ok q₂, rs₂))
    (hk₁ : pko rs₂.st q₁ = some k)
    (hk₂ : pko rs₂.st q₂ = some k) :
    q₁ = q₂ ∧ fget rs₂.st.cache k = some q₁ := by
  have props₁ := resolveF_props f₁ p₁ ⟨fc₁, s₀⟩ hw
  rw [h₁] at props₁
  obtain ⟨hW₁, -, -, -, hOk₁⟩ := props₁
  obtain ⟨hcan₁, -⟩ := hOk₁ q₁ rfl
  have props₂ := resolveF_props f₂ p₂ ⟨fc₂, rs₁.st⟩ hW₁
  rw [h₂] at props₂
  obtain ⟨hW₂, hM₂, hF₂, -, hOk₂⟩ := props₂
  obtain ⟨hcan₂, -⟩ := hOk₂ q₂ rfl
  have hko₁ : pko rs₁.st q₁ = some k := by
    obtain ⟨-, g2⟩ := hF₂ q₁ hcan₁.1
    rw [← g2]
    exact hk₁
  have hcache₁ : fget rs₁.st.cache k = some q₁ := hcan₁.2 k hko₁
  have hcache₂ : fget rs₂.st.cache k = some q₁ := hM₂ k q₁ hcache₁
  have hcacheq₂ : fget rs₂.st.cache k = some q₂ := hcan₂.2 k hk₂
  have hqq : some q₁ = some q₂ := hcache₂.symm.trans hcacheq₂
  exact ⟨Option.some.inj hqq, hcache₂⟩

/-- Witness for C1: the two independently constructed `"end"` leaves
resolve to the same object, parser 1, registered under their shared key. -/
theorem canonicalization_same_object_witness :
    WFb stLeafPair ∧
      resolveF 2 1 ⟨[], stLeafPair⟩ = (.ok 1, ⟨[], stLeafPairR1⟩) ∧
      resolveF 2 2 ⟨[], stLeafPairR1⟩ =
        (.ok 1, (resolveF 2 2 ⟨[], stLeafPairR1⟩).2) ∧
      pko (resolveF 2 2 ⟨[], stLeafPairR1⟩).2.st 1 = some "end:\"end\"" ∧
      ((1 : Nat) = 1 ∧
        fget (resolveF 2 2 ⟨[], stLeafPairR1⟩).2.st.cache "end:\"end\"" = some 1) :=
  ⟨by decide, rfl, rfl, by decide,
    canonicalization_same_object 1 2 2 2 [] [] stLeafPair 1 1 ⟨[], stLeafPairR1⟩
      (resolveF 2 2 ⟨[], stLeafPairR1⟩).2 "end:\"end\"" (by decide) rfl rfl
      (by decide) (by decide)⟩

/-- C3: the lazy-once property.  During one `resolve()` pass with a fresh
function cache, each thunk's invocation count grows by at most one, no
matter from how many grammar positions the thunk is referenced. -/
theorem thunk_invoked_at_most_once (fuel p : Nat) (s : St) (hw : WFb s) (t : Nat) :
    tcount (resolveTop fuel p s).2.st t ≤ tcount s t + 1 := by
  have props := resolveF_props fuel p ⟨[], s⟩ hw
  obtain ⟨-, -, -, hC, -⟩ := props
  obtain ⟨-, -, hbound, -⟩ := hC t
  have hct : cachedTruthyB ⟨[], s⟩ t = false := by
    unfold cachedTruthyB
    rcases htg : ttag (⟨[], s⟩ : RSt).st t with _ | g <;> rfl
  rw [hct] at hbound
  simpa using hbound

/-- Witness for C3: the shared thunk of `stSharedThunk`, referenced from
two child positions of parser 1, is invoked at most once. -/
theorem thunk_invoked_at_most_once_witness :
    WFb stSharedThunk ∧
      tcount (resolveTop 5 1 stSharedThunk).2.st 0 ≤ tcount stSharedThunk 0 + 1 :=
  ⟨by decide, thunk_invoked_at_most_once 5 1 stSharedThunk (by decide) 0⟩

/-- C9: whenever a parser's `cacheKey` field is set, `__cache` holds an
entry under that key (the well-formedness invariant, which every
`resolve` call preserves), so the early return of line 96 always finds an
actual `Parser` and returns it without touching the state — it can never
produce `undefined`. -/
theorem cacheKey_implies_cache_entry (s : St) (hw : WFb s) :
    (∀ p k, pko s p = some k →
      ∃ q, fget s.cache k = some q ∧
        ∀ (fc : List (Nat × LazyP2)) (fuel : Nat),
          resolveF (fuel + 1) p ⟨fc, s⟩ = (.ok q, ⟨fc, s⟩)) ∧
      ∀ (fuel p : Nat) (fc : List (Nat × LazyP2)),
        WFb (resolveF fuel p ⟨fc, s⟩).2.st := by
  constructor
  · intro p k hpk
    have hmem := fget_mem hpk
    have h5 := hw.2.2.2.2.1 (p, k) hmem
    rcases hlook : fget s.cache k with _ | q
    · exfalso
      have h52 := h5.2
      rw [hlook] at h52
      cases h52
    · exact ⟨q, rfl, fun fc fuel =>
        resolveF_quick fuel fc s p q hw (Or.inl ⟨k, hpk, hlook⟩)⟩
  · intro fuel p fc
    exact (resolveF_props fuel p ⟨fc, s⟩ hw).1

/-- Witness for C9 on the resolved `"leaf"` world. -/
theorem cacheKey_implies_cache_entry_witness :
    WFb stOneLeafR ∧
      pko stOneLeafR 1 = some "leaf:\"leaf\"" ∧
      (∃ q, fget stOneLeafR.cache "leaf:\"leaf\"" = some q ∧
        ∀ (fc : List (Nat × LazyP2)) (fuel : Nat),
          resolveF (fuel + 1) 1 ⟨fc, stOneLeafR⟩ = (.ok q, ⟨fc, stOneLeafR⟩)) :=
  ⟨by decide, by decide,
    (cacheKey_implies_cache_entry stOneLeafR (by decide)).1 1 "leaf:\"leaf\"" (by decide)⟩

end Packrattle
